import Mathlib

/-!
A shallow embedding, in Lean 4, of the core of a stack-oriented array-language
interpreter (compiler, function/selector encoding, and the looping/grouping
modifier algorithms), together with proofs of the behavioural laws stated in
its specification.

Sources embedded:
- `src/function.rs` (the `Selector` encoding),
- `src/algorithm/loops.rs` (`rank_to_depth`, `repeat`, `do_`, `partition`,
  `unpartition`, `ungroup`, `Array::partition_groups`),
- `src/compile.rs` (`Compiler`, `Assembly`, `load_impl`, `binding`,
  `func_outer`, word lowering).

Machine integers are modelled as `Nat`/`Int` (with explicit bounds where the
source's fixed width matters); fallible operations return `Except`, and Rust
panics are modelled as an enclosing `Option` whose `none` means "panicked".
Parts of the repository that are not in the provided sources (the array
runtime, the VM, the parser) are modelled from the specification; each such
definition carries a doc comment starting with "Modelled from the spec".
-/

namespace Uiua

/-! ## Selector (`src/function.rs`) -/

/-- From `src/function.rs`: `pub struct Selector([u8; 5])`.  The five bytes are
modelled as a list of naturals (the parser only ever stores values `0..=5`;
the invariant is not part of the Rust type either). -/
structure Selector where
  data : List Nat
deriving DecidableEq, Repr

/-- From `src/function.rs`, `Selector::min_inputs`:
`self.0.iter().max().copied().unwrap()`.  The maximum of the five bytes; the
fold from `0` agrees with the Rust iterator maximum on the (always nonempty,
unsigned) byte array. -/
def Selector.min_inputs (s : Selector) : Nat :=
  s.data.foldl Nat.max 0

/-- From `src/function.rs`, `Selector::outputs`:
`self.0.iter().position(|&i| i == 0).unwrap_or(5)`. -/
def Selector.outputs (s : Selector) : Nat :=
  match s.data.findIdx? (fun i => i == 0) with
  | some i => i
  | none => 5

/-- From `src/function.rs`, `impl fmt::Display for Selector`: each byte before
the first `0` renders as the character `b'a' + i - 1`.  Rust strings are
modelled as lists of characters. -/
def Selector.display (s : Selector) : List Char :=
  (s.data.takeWhile (fun i => i != 0)).map (fun i => Char.ofNat ('a'.toNat + i - 1))

/-- UTF-8 byte length of a string (Rust `str::len`), for a string modelled as
its list of characters. -/
def utf8Len (s : List Char) : Nat :=
  (s.map Char.utf8Size).sum

/-- From `src/function.rs`, `impl FromStr for Selector`: reject the empty
string, strings of more than 5 bytes, and strings with a character outside
`'a'..='e'`; otherwise store `c - 'a' + 1` for each character, the remaining
slots staying `0`. -/
def Selector.from_str (s : List Char) : Option Selector :=
  if s = [] ∨ 5 < utf8Len s ∨ s.any (fun c => !(decide ('a' ≤ c) && decide (c ≤ 'e'))) then
    none
  else
    some ⟨(s.map (fun c => c.toNat - 'a'.toNat + 1)) ++ List.replicate (5 - s.length) 0⟩

/-- The digit a selector character denotes: `'a'` is `1`, ..., `'e'` is `5`. -/
def charDigit (c : Char) : Nat :=
  c.toNat - 'a'.toNat + 1

/-- The maximum digit of a selector string. -/
def maxDigit (s : List Char) : Nat :=
  (s.map charDigit).foldl Nat.max 0

/-! ## Rank-list utility (`src/algorithm/loops.rs`) -/

/-- From `src/algorithm/loops.rs`, `rank_to_depth`: the declared rank defaults
to the actual rank; a negative declared rank keeps `max(actual + declared, 0)`
trailing axes, a non-negative one keeps `min(declared, actual)` axes. -/
def rank_to_depth (declared_rank : Option Int) (array_rank : Nat) : Nat :=
  let d : Int := declared_rank.getD (array_rank : Int)
  array_rank -
    (if d < 0 then (max ((array_rank : Int) + d) 0).toNat
     else d.toNat.min array_rank)

/-! ## Partition, unpartition and ungroup (`src/algorithm/loops.rs`)

Arrays are modelled at the level of their row lists (Modelled from the spec,
§3: an array is a shape plus a row-major buffer; its rows are the slices along
the leading axis, and element-wise equality of two arrays with equal row
counts is equality of their row lists).  A value whose rows are drawn from a
type `R` is a `List R`; one level up, a value whose rows are themselves values
(a partitioned or grouped array) is a `List (List R)`.
-/

/-- The constant `isize::MAX`, the initial `last_marker` of
`Array::partition_groups`. -/
def isizeMAX : Int := 9223372036854775807

/-- The constant `usize::MAX`, the saturation bound of Rust's
float-to-`usize` `as` cast. -/
def usizeMAX : Nat := 18446744073709551615

variable {R : Type}

/-- Push a row onto the last group, as the source's
`groups.last_mut().unwrap().push(row)`; `none` models the `unwrap` panic when
there is no group. -/
def pushLast : List (List R) → R → Option (List (List R))
  | [], _ => none
  | [g], r => some [g ++ [r]]
  | g :: g2 :: gs, r => (pushLast (g2 :: gs) r).map (g :: ·)

/-- The row loop of `Array::partition_groups` (`src/algorithm/loops.rs`): walk
rows and markers together keeping `last_marker`; a positive marker that
differs from `last_marker` opens a new group; every positive-marker row is
pushed onto the last group (`none` models the `unwrap` panic when no group
exists); non-positive rows are dropped. -/
def pgLoop : List R → List Int → Int → List (List R) → Option (List (List R))
  | [], _, _, groups => some groups
  | _, [], _, groups => some groups
  | r :: rows, m :: ms, last_marker, groups =>
    if 0 < m then
      match pushLast (if m ≠ last_marker then groups ++ [[]] else groups) r with
      | none => none
      | some groups2 => pgLoop rows ms m groups2
    else
      pgLoop rows ms m groups

/-- From `src/algorithm/loops.rs`, `Array::partition_groups`, at the level of
the row list: error when the marker count differs from the row count (the
source formats the array's shape into the message; the shape is not visible at
the row level, so the message here is representative only), otherwise run the
marker walk from `last_marker = isize::MAX` on no groups. -/
def partition_groups (rows : List R) (markers : List Int) :
    Option (Except String (List (List R))) :=
  if markers.length ≠ rows.length then
    some (.error ("Cannot partition array with markers of length " ++
      toString markers.length))
  else
    (pgLoop rows markers isizeMAX []).map .ok

/-- Increment the count of the last run, as the source's
`marker_partitions.last_mut().unwrap().1 += 1` (only reached with a nonempty
run list). -/
def bumpLast : List (Int × Nat) → List (Int × Nat)
  | [] => []
  | [(m, n)] => [(m, n + 1)]
  | p :: q :: ps => p :: bumpLast (q :: ps)

/-- The marker-counting loop of `unpartition` (`src/algorithm/loops.rs`): fold
the tail of the marker list, extending the last run on a repeated marker and
opening a run of length 1 otherwise. -/
def rleLoop : List Int → Int → List (Int × Nat) → List (Int × Nat)
  | [], _, acc => acc
  | m :: ms, prev, acc =>
    if m = prev then rleLoop ms m (bumpLast acc)
    else rleLoop ms m (acc ++ [(m, 1)])

/-- The run-length encoding `marker_partitions` built by `unpartition`
(`src/algorithm/loops.rs`). -/
def marker_partitions (markers : List Int) : List (Int × Nat) :=
  match markers with
  | [] => []
  | m :: ms => rleLoop ms m [(m, 1)]

/-- Specification-side run-length encoding: each maximal run of equal markers
contributes one pair of the marker and the run length. -/
def rleSpec : List Int → List (Int × Nat)
  | [] => []
  | m :: ms =>
    (m, 1 + (ms.takeWhile (fun x => x == m)).length) ::
      rleSpec (ms.dropWhile (fun x => x == m))
termination_by l => l.length
decreasing_by
  simp_wf
  have h : (List.dropWhile (fun x => x == m) ms).length ≤ ms.length := by
    induction ms with
    | nil => simp
    | cons a t ih =>
      rw [List.dropWhile_cons]
      split
      · exact le_trans ih (by simp)
      · exact le_refl _
  omega

/-- Specification-side groups: one group per maximal run of a positive marker,
holding exactly that run's rows. -/
def sliceGroups : List (Int × Nat) → List R → List (List R)
  | [], _ => []
  | (m, n) :: runs, rows =>
    if 0 < m then rows.take n :: sliceGroups runs (rows.drop n)
    else sliceGroups runs (rows.drop n)

/-- The row segment `(offset..offset + len).map(|i| original.row(i))` drawn
from the original array by `unpartition`; `none` models the out-of-bounds
`row(i)` panic. -/
def rowRange (original : List R) (offset : Nat) : Nat → Option (List R)
  | 0 => some []
  | len + 1 =>
    match original.get? offset with
    | none => none
    | some r => (rowRange original (offset + 1) len).map (r :: ·)

/-- The reassembly walk of `unpartition` (`src/algorithm/loops.rs`): for each
run, a positive marker consumes the next untransformed row and contributes its
rows (`none` models the `unwrap` panic when the iterator is exhausted); a
non-positive marker copies `part_len` rows of the original array from the
running offset. -/
def upWalk : List (Int × Nat) → List (List R) → List R → Nat → Option (List R)
  | [], _, _, _ => some []
  | (m, n) :: runs, untransformed, original, offset =>
    if 0 < m then
      match untransformed with
      | [] => none
      | u :: us => (upWalk runs us original (offset + n)).map (u ++ ·)
    else
      match rowRange original offset n with
      | none => none
      | some rs => (upWalk runs untransformed original (offset + n)).map (rs ++ ·)

/-- From `src/algorithm/loops.rs`, `unpartition`, at the level of row lists
(Modelled from the spec: `env.call` of the signature-`(1, 1)` function `f` is
a total function on values, `as_ints` has already produced the integer marker
list, and `Value::from_row_values` concatenates the collected row values;
all of these live outside the given sources).  `none` is a panic,
`some (.error e)` a runtime error, `some (.ok rows)` success. -/
def unpartition (fsig : Nat × Nat) (f : List R → List R)
    (partitioned : List (List R)) (original : List R) (markers : List Int) :
    Option (Except String (List R)) :=
  if fsig ≠ (1, 1) then
    some (.error ("Cannot undo partition with on function with signature " ++
      toString fsig.1 ++ "." ++ toString fsig.2))
  else
    let untransformed := partitioned.map f
    let runs := marker_partitions markers
    let positive_partitions := (runs.filter (fun p => decide (0 < p.1))).length
    if positive_partitions ≠ untransformed.length then
      some (.error ("Cannot undo partition because the paritioned array originally had " ++
        toString positive_partitions ++ " rows, but now it has " ++
        toString untransformed.length))
    else
      (upWalk runs untransformed original 0).map .ok

/-- Partition with a function of at most one argument, as `collapse_groups`
dispatches it (`src/algorithm/loops.rs`): compute the groups, apply `f` to
each, and stack the results as the rows of one value (Modelled from the spec:
`Value::from_row_values` makes the mapped group values the rows of the
result). -/
def partitionMap (f : List R → List R) (rows : List R) (markers : List Int) :
    Option (Except String (List (List R))) :=
  match partition_groups rows markers with
  | none => none
  | some (.error e) => some (.error e)
  | some (.ok groups) => some (.ok (groups.map f))

/-- The round trip of claim C2: partition with the identity, then unpartition
with the identity against the same original array and markers. -/
def partitionUnpartitionId (rows : List R) (markers : List Int) :
    Option (Except String (List R)) :=
  match partitionMap id rows markers with
  | none => none
  | some (.error e) => some (.error e)
  | some (.ok partitioned) => unpartition (1, 1) id partitioned rows markers

/-- The reassembly walk of `ungroup` (`src/algorithm/loops.rs`): at each
original position, a non-negative group index draws the next row from that
bucket — `none` models the panic of the unchecked `ungrouped_rows[index]`
indexing when the index is out of bounds, and an exhausted bucket raises the
recoverable "modified between grouping and ungrouping" error — while a
negative index passes through `original.row(i)` (`none` models that
indexing's own out-of-bounds panic).  Besides the collected rows, the walk
returns the final bucket states (the remainders of the source's row
iterators), which `ungroup` discards. -/
def ugWalk : List Int → List (List R) → List R → Nat →
    Option (Except String (List R × List (List R)))
  | [], buckets, _, _ => some (.ok ([], buckets))
  | index :: rest, buckets, original, i =>
    if 0 ≤ index then
      match buckets.get? index.toNat with
      | none => none
      | some [] =>
        some (.error "A group's length was modified between grouping and ungrouping")
      | some (r :: b) =>
        match ugWalk rest (buckets.set index.toNat b) original (i + 1) with
        | none => none
        | some (.error e) => some (.error e)
        | some (.ok (out, bs)) => some (.ok (r :: out, bs))
    else
      match original.get? i with
      | none => none
      | some r =>
        match ugWalk rest buckets original (i + 1) with
        | none => none
        | some (.error e) => some (.error e)
        | some (.ok (out, bs)) => some (.ok (r :: out, bs))

/-- From `src/algorithm/loops.rs`, `ungroup`, at the level of row lists
(Modelled from the spec: `env.call` of the signature-`(1, 1)` function `f` is
a total function on values and `as_ints` has already produced the integer
index list).  The buckets are the transformed rows' row iterators: the source
maps `f` over the grouped rows in reverse and then reverses the result. -/
def ungroup (fsig : Nat × Nat) (f : List R → List R)
    (grouped : List (List R)) (original : List R) (indices : List Int) :
    Option (Except String (List R)) :=
  if fsig ≠ (1, 1) then
    some (.error ("Cannot undo group with on function with signature " ++
      toString fsig.1 ++ "." ++ toString fsig.2))
  else
    let ungrouped_rows := (grouped.reverse.map f).reverse
    (ugWalk indices ungrouped_rows original 0).map (fun res => res.map Prod.fst)

/-- The total length of a run list. -/
def sumLens (runs : List (Int × Nat)) : Nat :=
  (runs.map Prod.snd).sum

/-! ## Repeat (`src/algorithm/loops.rs`)

The repetition count is a finite `f64` in the source.  Every finite `f64` is a
rational number, and on those rationals the source's uses of `fract`, `abs`
and the comparison against `f64::EPSILON` are exact float operations, so the
finite branch of `repeat` is embedded over `ℚ`.
-/

/-- The constant `f64::EPSILON`, i.e. `2 ^ (-52)`, exactly. -/
def f64Epsilon : ℚ := 1 / 4503599627370496

/-- Truncation toward zero, as Rust's `f64::trunc`. -/
def ratTrunc (q : ℚ) : Int := if 0 ≤ q then ⌊q⌋ else ⌈q⌉

/-- The fractional part, as Rust's `f64::fract` (`x - x.trunc()`). -/
def ratFract (q : ℚ) : ℚ := q - ratTrunc q

/-- From `src/algorithm/loops.rs`, `repeat`, on a finite repetition count
(Modelled from the spec: the `invert` operation on callables lives outside the
given sources and is passed in, and `env.call` is modelled as succeeding, so
the result reports which function the loop calls and how many times it runs).
A fractional part larger than `f64::EPSILON` is rejected; a negative count
replaces the function by its inverse; the iteration count is `n.abs() as
usize`, which truncates toward zero and saturates at `usize::MAX`. -/
def repeatFinite {Fn : Type} (invert : Fn → Except String Fn) (f : Fn) (n : ℚ) :
    Except String (Fn × Nat) :=
  if f64Epsilon < |ratFract n| then
    .error "Repetitions must be a single integer or infinity"
  else
    match (if n < 0 then invert f else .ok f) with
    | .error e => .error e
    | .ok f2 => .ok (f2, min (ratTrunc |n|).toNat usizeMAX)

/-! ## Do (`src/algorithm/loops.rs`) -/

/-- From the crate root (outside the given sources; spec §3): a callable's
static stack effect. -/
structure Signature where
  args : Nat
  outputs : Nat
deriving DecidableEq, Repr

/-- Modelled from the spec (§3): `Signature::compose` lives in the crate root
outside the given sources; `(a1, o1) ∘ (a2, o2) = (a1 + max(0, a2 - o1),
o2 + max(0, o1 - a2))`, the maxima written as saturating `Nat` subtraction. -/
def Signature.compose (s1 s2 : Signature) : Signature :=
  ⟨s1.args + (s2.args - s1.outputs), s2.outputs + (s1.outputs - s2.args)⟩

/-- From `src/algorithm/loops.rs`, `do_`: the number of top-of-stack values
cloned before each condition call, `g_sig.args.saturating_sub(g_sig.outputs - 1)`. -/
def do_copy_count (g_sig : Signature) : Nat :=
  g_sig.args - (g_sig.outputs - 1)

/-- From `src/algorithm/loops.rs`, `do_`: the condition's sub-signature
`Signature::new(g_sig.args, g_sig.outputs + copy_count - 1)`. -/
def do_g_sub (g_sig : Signature) : Signature :=
  ⟨g_sig.args, g_sig.outputs + do_copy_count g_sig - 1⟩

/-- From `src/algorithm/loops.rs`, `do_`: the signature validation before the
loop.  The two error strings interpolate signatures; `Signature`'s `Display`
lives outside the given sources, so signatures are rendered here as
`args.outputs`. -/
def doSetup (f_sig g_sig : Signature) : Except String (Nat × Signature) :=
  if g_sig.outputs < 1 then
    .error ("Do's condition function must return at least 1 value, but its signature is " ++
      toString g_sig.args ++ "." ++ toString g_sig.outputs)
  else
    let comp_sig := f_sig.compose (do_g_sub g_sig)
    if comp_sig.args ≠ comp_sig.outputs then
      .error ("Do's functions must have a net stack change of 0, but the composed signature of " ++
        toString f_sig.args ++ "." ++ toString f_sig.outputs ++ " and " ++
        toString g_sig.args ++ "." ++ toString g_sig.outputs ++ ", minus the condition, is " ++
        toString comp_sig.args ++ "." ++ toString comp_sig.outputs)
    else
      .ok (do_copy_count g_sig, do_g_sub g_sig)

/-- Modelled from the spec: `Value::as_bool` (outside the given sources); the
condition value must be exactly 0 or 1, numbers modelled as rationals. -/
def as_bool (v : ℚ) : Except String Bool :=
  if v = 1 then .ok true
  else if v = 0 then .ok false
  else .error "Do condition must be a boolean"

/-- The iteration of `do_` (`src/algorithm/loops.rs`): clone the top
`copy_count` stack values (Modelled from the spec: `clone_stack_top`
duplicates the top block, stacks being lists with the top first, and
`env.call` is a partial stack transformer), call the condition, pop the
boolean, stop on false, call the body on true.  Fuel bounds the iteration
count; `none` means the fuel ran out. -/
def doLoop (f g : List ℚ → Except String (List ℚ)) (copy_count : Nat) :
    Nat → List ℚ → Option (Except String (List ℚ))
  | 0, _ => none
  | fuel + 1, stack =>
    match g (stack.take copy_count ++ stack) with
    | .error e => some (.error e)
    | .ok [] => some (.error "Stack was empty when evaluating do condition")
    | .ok (v :: rest) =>
      match as_bool v with
      | .error e => some (.error e)
      | .ok false => some (.ok rest)
      | .ok true =>
        match f rest with
        | .error e => some (.error e)
        | .ok stack2 => doLoop f g copy_count fuel stack2

/-- From `src/algorithm/loops.rs`, `do_`: pop the body and condition, validate
their signatures, then iterate. -/
def do_ (f g : List ℚ → Except String (List ℚ)) (f_sig g_sig : Signature)
    (fuel : Nat) (stack : List ℚ) : Option (Except String (List ℚ)) :=
  match doSetup f_sig g_sig with
  | .error e => some (.error e)
  | .ok (copy_count, _) => doLoop f g copy_count fuel stack

/-! ## Compiler (`src/compile.rs`)

The compiler is embedded from `src/compile.rs`.  The parts of the crate it
depends on that are not in the given sources are modelled from the spec: the
instruction alphabet (spec §4.3; `vm.rs`), the AST (spec §4.2; `ast.rs` and
`parse.rs`), the primitive table (`ops.rs`; passed in as a name-lookup
parameter `pfn`), the `Value` union at the granularity the compiler observes
(numbers, characters, strings, function handles, and `Value::default()`), and
source spans (opaque numeric identifiers).  Rust's `HashMap` is modelled as an
association list with at most one entry per key.  `f64` number literals carry
their parse result (`Option ℚ`), standing for `s.parse::<f64>()`.
-/

/-- Modelled from the spec: an opaque primitive identifier (`ops::Primitive`
is outside the given sources). -/
structure Primitive where
  id : Nat
deriving DecidableEq, Repr

/-- From `src/function.rs`: the three `Function` variants.  (Named `UFunction`
because `Function` is taken by the Lean prelude.) -/
inductive UFunction where
  | Code (start : Nat)
  | Primitive (p : Primitive)
  | Selector (s : Selector)
deriving DecidableEq, Repr

/-- From `src/function.rs`: `FunctionId`. -/
inductive FunctionId where
  | Named (name : String)
  | Anonymous (span : Nat)
  | FormatString (span : Nat)
  | Primitive (p : Primitive)
deriving DecidableEq, Repr

/-- Modelled from the spec (§3): the `Value` union at the granularity the
compiler observes — numbers (parsed `f64` literals, embedded into `ℚ`),
characters, strings, function handles, and the `Value::default()` sentinel
pushed for unresolved bindings. -/
inductive Value where
  | num (n : ℚ)
  | char (c : Char)
  | str (s : String)
  | func (f : UFunction)
  | default
deriving DecidableEq, Repr

/-- Modelled from the spec (§4.3): the instruction alphabet (`vm.rs` is
outside the given sources). -/
inductive Instr where
  | Comment (s : String)
  | Push (v : Value)
  | Constant (i : Nat)
  | CopyGlobal (i : Nat)
  | Call (span : Nat)
  | Return
  | BeginArray
  | EndArray (call : Bool) (span : Nat)
  | BindGlobal
deriving DecidableEq, Repr

/-- From `src/compile.rs`: `CompileError` (payloads of the variants wrapping
foreign error types are modelled as strings). -/
inductive CompileError where
  | Parse (msg : String)
  | InvalidInteger (s : String)
  | InvalidNumber (s : String)
  | UnknownBinding (name : String)
  | ConstEval (msg : String)
deriving DecidableEq, Repr

/-- From `src/compile.rs`: `Bound`, what a name resolves to. -/
inductive Bound where
  | Primitive (p : Primitive)
  | Function (f : UFunction)
  | Global (index : Nat)
  | Constant (index : Nat)
  | Error
deriving DecidableEq, Repr

/-- From `src/compile.rs`: `Assembly` (the run methods are VM territory and
not modelled; `function_ids` is the `HashMap` as an association list). -/
structure Assembly where
  instrs : List Instr
  start : Nat
  constants : List Value
  function_ids : List (UFunction × FunctionId)
  spans : List Nat
deriving DecidableEq, Repr

/-- From `src/compile.rs`: `Assembly::add_function_instrs` — append and move
`start` to the new end. -/
def Assembly.add_function_instrs (a : Assembly) (new : List Instr) : Assembly :=
  { a with instrs := a.instrs ++ new, start := a.instrs.length + new.length }

/-- From `src/compile.rs`: `Assembly::truncate`. -/
def Assembly.truncate (a : Assembly) (len : Nat) : Assembly :=
  { a with instrs := a.instrs.take len, start := len }

/-- From `src/compile.rs`: the `Compiler` state.  The constant-eval `Vm` is
not modelled (the `load` path never touches it); `in_progress_functions`
keeps the most recent frame first; `errors` pairs each error with its span. -/
structure Compiler where
  global_instrs : List Instr
  in_progress_functions : List (List Instr)
  bindings : List (String × Bound)
  errors : List (Nat × CompileError)
  assembly : Assembly
deriving DecidableEq, Repr

/-- `HashMap` lookup on the association-list model. -/
def lookupBinding (bindings : List (String × Bound)) (name : String) : Option Bound :=
  (bindings.find? (fun p => decide (p.1 = name))).map Prod.snd

/-- `HashMap::insert` on the association-list model: replace the existing
entry for the key, else append. -/
def insertBinding (bindings : List (String × Bound)) (name : String) (b : Bound) :
    List (String × Bound) :=
  if bindings.any (fun p => decide (p.1 = name)) then
    bindings.map (fun p => if p.1 = name then (name, b) else p)
  else bindings ++ [(name, b)]

/-- `HashMap::insert` for the assembly's function-id index. -/
def insertFunctionId (m : List (UFunction × FunctionId)) (f : UFunction) (id : FunctionId) :
    List (UFunction × FunctionId) :=
  if m.any (fun p => decide (p.1 = f)) then
    m.map (fun p => if p.1 = f then (f, id) else p)
  else m ++ [(f, id)]

/-- From `src/compile.rs`, `Compiler::binding`: the number of `Global` values
among the bindings, `bindings.values().filter(Global).count()`. -/
def countGlobals (bindings : List (String × Bound)) : Nat :=
  (bindings.filter (fun p => match p.2 with | Bound.Global _ => true | _ => false)).length

/-- From `src/compile.rs`: `instrs_mut`/`push_instr` — append to the
innermost in-progress function, else to the global instructions. -/
def Compiler.push_instr (c : Compiler) (i : Instr) : Compiler :=
  match c.in_progress_functions with
  | f :: rest => { c with in_progress_functions := (f ++ [i]) :: rest }
  | [] => { c with global_instrs := c.global_instrs ++ [i] }

/-- From `src/compile.rs`: `push_call_span` — append the span to the span
table and return its index. -/
def Compiler.push_call_span (c : Compiler) (span : Nat) : Compiler × Nat :=
  ({ c with assembly := { c.assembly with spans := c.assembly.spans ++ [span] } },
   c.assembly.spans.length)

/-- Modelled from the spec (§6): `Ident::is_capitalized` (the `Ident` type
lives in the crate root) — names are classified by the case of their first
character. -/
def is_capitalized (s : String) : Bool :=
  match s.data with
  | [] => false
  | c :: _ => c.isUpper

/-- Modelled from the spec: `Span::merge`; spans are opaque here, so the
merge keeps the first span. -/
def mergeSpans (a _b : Nat) : Nat := a

/-- The comment name `func_outer` generates for a function id (the
`FunctionId::Primitive` case is `unreachable!()` in the source). -/
def fnComment : FunctionId → String
  | FunctionId.Named name => "fn " ++ name
  | FunctionId.Anonymous span => "fn at " ++ toString span
  | FunctionId.FormatString span => "format string at " ++ toString span
  | FunctionId.Primitive _ => ""

/-- From `src/compile.rs`, `func_outer`, before the body is compiled: push a
fresh in-progress frame and the leading name comment. -/
def func_outer_pre (c : Compiler) (id : FunctionId) : Compiler :=
  Compiler.push_instr
    { c with in_progress_functions := [] :: c.in_progress_functions }
    (Instr.Comment (fnComment id))

/-- From `src/compile.rs`, `func_outer`: the 5-instruction trivial-wrapper
pattern `[Comment, Push(f), Call, Comment, Return]` with `f` a function
value; its presence short-circuits the freshly compiled function to `f`. -/
def short_circuit : List Instr → Option UFunction
  | [_, Instr.Push (Value.func f), Instr.Call _, _, _] => some f
  | _ => none

/-- From `src/compile.rs`, `func_outer`, after the body is compiled: emit the
closing comment and `Return`, pop the frame (the pop's `unwrap` cannot fire
because `func_outer_pre` pushed the frame; the impossible empty case is a
no-op here), apply the 5-instruction trivial-wrapper rewrite, append the body
to the assembly when not short-circuited, bind a `Named` id, register the
function id, and push the function. -/
def func_outer_post (id : FunctionId) (c : Compiler) : Compiler :=
  let c2 := (c.push_instr (Instr.Comment ("end of " ++ fnComment id))).push_instr
    Instr.Return
  match c2.in_progress_functions with
  | [] => c2
  | ipf :: rest =>
    let c3 := { c2 with in_progress_functions := rest }
    let function := match short_circuit ipf with
      | some f => f
      | none => UFunction.Code (c3.assembly.instrs.length % 4294967296)
    let c4 := match short_circuit ipf with
      | some _ => c3
      | none => { c3 with assembly := c3.assembly.add_function_instrs ipf }
    let c5 := match id with
      | FunctionId.Named ident =>
        { c4 with bindings := insertBinding c4.bindings ident (Bound.Function function) }
      | _ => c4
    let c6 := { c5 with assembly :=
      { c5.assembly with
        function_ids := insertFunctionId c5.assembly.function_ids function id } }
    c6.push_instr (Instr.Push (Value.func function))

mutual
/-- Modelled from the spec (§4.2): the AST (`ast.rs` is outside the given
sources).  `Sp<T>` is a pair of the value and its span; a `Number` word
carries its raw text and the result of `s.parse::<f64>()`. -/
inductive Word where
  | Number (raw : String) (parsed : Option ℚ)
  | Chr (c : Char)
  | Str (s : String)
  | Ident (name : String)
  | Array (items : List (Word × Nat))
  | Strand (items : List (Word × Nat))
  | Func (f : Func)
  | FuncArray (funcs : List Func)
  | Primitive (p : Primitive)
  | Modified (m : Modified)

inductive Func where
  | mk (id : FunctionId) (body : List (Word × Nat))

inductive Modified where
  | mk (modifier : Primitive × Nat) (word : Word × Nat)
end

/-- Modelled from the spec: a binding item, `name ← words`. -/
structure Binding where
  name : String × Nat
  words : List (Word × Nat)

/-- Modelled from the spec: top-level items. -/
inductive Item where
  | Words (words : List (Word × Nat))
  | Binding (b : Binding)
  | Comment (s : String)
  | Newlines

/-- From `src/compile.rs`, `Compiler::primitive`: push the primitive function
and, in call position, a `Call` with a fresh span. -/
def primitive (p : Primitive) (span : Nat) (call : Bool) (c : Compiler) : Compiler :=
  let c1 := c.push_instr (Instr.Push (Value.func (UFunction.Primitive p)))
  if call then
    let st := c1.push_call_span span
    st.1.push_instr (Instr.Call st.2)
  else c1

/-- From `src/compile.rs`, `Compiler::selector`: like `primitive`, for a
selector. -/
def selector (s : Selector) (span : Nat) (call : Bool) (c : Compiler) : Compiler :=
  let c1 := c.push_instr (Instr.Push (Value.func (UFunction.Selector s)))
  if call then
    let st := c1.push_call_span span
    st.1.push_instr (Instr.Call st.2)
  else c1

/-- From `src/compile.rs`, `Compiler::ident`: resolve against the bindings;
on a miss, fall back to a primitive by name (`pfn`, standing for
`Primitive::from_name`), then to parsing the name as a selector, else record
`UnknownBinding` and behave as the `Error` binding (push the default value);
resolved values are followed by a `Call` in call position. -/
def ident (pfn : String → Option Primitive) (name : String) (span : Nat) (call : Bool)
    (c : Compiler) : Compiler :=
  match lookupBinding c.bindings name with
  | none =>
    match pfn name with
    | some p => primitive p span call c
    | none =>
      match Selector.from_str name.data with
      | some sel => selector sel span call c
      | none =>
        let c1 := { c with errors := c.errors ++ [(span, CompileError.UnknownBinding name)] }
        let c2 := c1.push_instr (Instr.Push Value.default)
        if call then
          let st := c2.push_call_span span
          st.1.push_instr (Instr.Call st.2)
        else c2
  | some bound =>
    let c1 := match bound with
      | Bound.Global index => c.push_instr (Instr.CopyGlobal index)
      | Bound.Function f => c.push_instr (Instr.Push (Value.func f))
      | Bound.Constant index => c.push_instr (Instr.Constant index)
      | Bound.Primitive p => c.push_instr (Instr.Push (Value.func (UFunction.Primitive p)))
      | Bound.Error => c.push_instr (Instr.Push Value.default)
    if call then
      let st := c1.push_call_span span
      st.1.push_instr (Instr.Call st.2)
    else c1

mutual
/-- From `src/compile.rs`, `Compiler::word`: lower one word. -/
def word (pfn : String → Option Primitive) : Word × Nat → Bool → Compiler → Compiler
  | (Word.Number s parsed, sp), _, c =>
    (match parsed with
     | some f => c.push_instr (Instr.Push (Value.num f))
     | none =>
       Compiler.push_instr
         { c with errors := c.errors ++ [(sp, CompileError.InvalidNumber s)] }
         (Instr.Push (Value.num 0)))
  | (Word.Chr ch, _), _, c => c.push_instr (Instr.Push (Value.char ch))
  | (Word.Str s, _), _, c => c.push_instr (Instr.Push (Value.str s))
  | (Word.Ident name, sp), call, c => ident pfn name sp call c
  | (Word.Array items, sp), _, c =>
    let c1 := c.push_instr Instr.BeginArray
    let c2 := words pfn items true c1
    let st := c2.push_call_span sp
    st.1.push_instr (Instr.EndArray true st.2)
  | (Word.Strand items, _), _, c =>
    let c1 := c.push_instr Instr.BeginArray
    let c2 := words pfn items false c1
    c2.push_instr (Instr.EndArray false 0)
  | (Word.Func f, _), _, c => func pfn f c
  | (Word.FuncArray funcs, _), _, c =>
    let c1 := c.push_instr Instr.BeginArray
    let c2 := funcsRev pfn funcs c1
    c2.push_instr (Instr.EndArray false 0)
  | (Word.Primitive p, sp), call, c => primitive p sp call c
  | (Word.Modified m, _), call, c => modified pfn m call c
termination_by w _ _ => sizeOf w

/-- From `src/compile.rs`, `Compiler::words`: compile a word sequence in
reverse textual order (the rightmost word first); processing the tail first
and the head last is exactly the source's reversed iteration. -/
def words (pfn : String → Option Primitive) (ws : List (Word × Nat)) (call : Bool)
    (c : Compiler) : Compiler :=
  match ws with
  | [] => c
  | w :: rest => word pfn w call (words pfn rest call c)
termination_by sizeOf ws

/-- From `src/compile.rs`, the `Word::FuncArray` case: the function literals
are compiled in reverse order. -/
def funcsRev (pfn : String → Option Primitive) (fs : List Func) (c : Compiler) : Compiler :=
  match fs with
  | [] => c
  | f :: rest => func pfn f (funcsRev pfn rest c)
termination_by sizeOf fs

/-- From `src/compile.rs`, `Compiler::func`: `func_outer` around the body. -/
def func (pfn : String → Option Primitive) (f : Func) (c : Compiler) : Compiler :=
  match f with
  | Func.mk id body => func_outer_post id (words pfn body true (func_outer_pre c id))
termination_by sizeOf f

/-- From `src/compile.rs`, `Compiler::modified`: compile an anonymous
function whose body is the modified word (not called) followed by the
modifier primitive (called), then optionally call it. -/
def modified (pfn : String → Option Primitive) (m : Modified) (call : Bool)
    (c : Compiler) : Compiler :=
  match m with
  | Modified.mk md wd =>
    let id := FunctionId.Anonymous (mergeSpans md.2 wd.2)
    let c1 := func_outer_pre c id
    let c2 := word pfn wd false c1
    let c3 := primitive md.1 md.2 true c2
    let c4 := func_outer_post id c3
    if call then
      let st := c4.push_call_span md.2
      st.1.push_instr (Instr.Call st.2)
    else c4
termination_by sizeOf m
decreasing_by all_goals (simp_wf; try omega)
end

/-- From `src/compile.rs`, `Compiler::binding`: compile a capitalised name as
a named `Func`, a lowercase name as inline top-level words; in both cases the
name is then bound to the next `Global` index and `BindGlobal` is emitted. -/
def binding (pfn : String → Option Primitive) (b : Binding) (c : Compiler) : Compiler :=
  let c1 :=
    if is_capitalized b.name.1 then
      func pfn (Func.mk (FunctionId.Named b.name.1) b.words) c
    else
      words pfn b.words true c
  let index := countGlobals c1.bindings
  Compiler.push_instr
    { c1 with bindings := insertBinding c1.bindings b.name.1 (Bound.Global index) }
    Instr.BindGlobal

/-- From `src/compile.rs`, `Compiler::item`. -/
def item (pfn : String → Option Primitive) (it : Item) (c : Compiler) : Compiler :=
  match it with
  | Item.Words ws => words pfn ws true c
  | Item.Binding b => binding pfn b c
  | Item.Comment _ => c
  | Item.Newlines => c

/-- From `src/compile.rs`, `Compiler::load_impl` (the parse step is outside
the given sources, so the parsed items and parse errors are inputs): remember
the two buffer lengths, lower every item, collect the parse errors followed
by the accumulated compile errors (draining the latter), and on any error
truncate both buffers back and return the list. -/
def load_impl (pfn : String → Option Primitive) (items : List Item)
    (parse_errors : List (Nat × CompileError)) (c : Compiler) :
    Compiler × Option (List (Nat × CompileError)) :=
  let function_start := c.assembly.instrs.length
  let global_start := c.global_instrs.length
  let c1 := items.foldl (fun acc it => item pfn it acc) c
  let errors := parse_errors ++ c1.errors
  let c2 := { c1 with errors := [] }
  if errors.isEmpty then (c2, none)
  else
    let c3 := { c2 with assembly := c2.assembly.truncate function_start }
    let c4 := { c3 with global_instrs := c3.global_instrs.take global_start }
    (c4, some errors)

/-- The buffer-length and frame-shape relation every lowering step preserves:
the assembly and global buffers only grow, an empty frame stack stays empty,
and a nonempty frame stack keeps its lower frames while the top frame is only
appended to. -/
def Preserves (c c2 : Compiler) : Prop :=
  c.assembly.instrs.length ≤ c2.assembly.instrs.length ∧
  c.global_instrs.length ≤ c2.global_instrs.length ∧
  (c.in_progress_functions = [] → c2.in_progress_functions = []) ∧
  (∀ h t, c.in_progress_functions = h :: t →
    ∃ d, c2.in_progress_functions = (h ++ d) :: t)

/-- A minimal compiler state used as a concrete test vehicle (the
`Compiler::default` prelude of constants and primitives is irrelevant to the
behaviour under test). -/
def emptyCompiler : Compiler :=
  { global_instrs := [], in_progress_functions := [], bindings := [], errors := [],
    assembly := { instrs := [], start := 0, constants := [], function_ids := [],
                  spans := [] } }

/-! ## Helper lemmas -/

theorem char_eq_of_toNat {c d : Char} (h : c.toNat = d.toNat) : c = d :=
  Char.ext (UInt32.ext h)

theorem char_range_cases (c : Char) (h1 : 'a' ≤ c) (h2 : c ≤ 'e') :
    c = 'a' ∨ c = 'b' ∨ c = 'c' ∨ c = 'd' ∨ c = 'e' := by
  have h1n : 97 ≤ c.toNat := h1
  have h2n : c.toNat ≤ 101 := h2
  have hc : c.toNat = 97 ∨ c.toNat = 98 ∨ c.toNat = 99 ∨ c.toNat = 100 ∨ c.toNat = 101 := by
    omega
  rcases hc with h | h | h | h | h
  · exact Or.inl (char_eq_of_toNat h)
  · exact Or.inr (Or.inl (char_eq_of_toNat h))
  · exact Or.inr (Or.inr (Or.inl (char_eq_of_toNat h)))
  · exact Or.inr (Or.inr (Or.inr (Or.inl (char_eq_of_toNat h))))
  · exact Or.inr (Or.inr (Or.inr (Or.inr (char_eq_of_toNat h))))

theorem utf8Size_of_range {c : Char} (h1 : 'a' ≤ c) (h2 : c ≤ 'e') : c.utf8Size = 1 := by
  rcases char_range_cases c h1 h2 with h | h | h | h | h <;> subst h <;> decide

theorem charDigit_roundtrip {c : Char} (h1 : 'a' ≤ c) (h2 : c ≤ 'e') :
    Char.ofNat ('a'.toNat + charDigit c - 1) = c := by
  rcases char_range_cases c h1 h2 with h | h | h | h | h <;> subst h <;> decide

theorem charDigit_pos (c : Char) : 1 ≤ charDigit c := by
  simp [charDigit]

theorem utf8Len_of_range {s : List Char} (h : ∀ c ∈ s, 'a' ≤ c ∧ c ≤ 'e') :
    utf8Len s = s.length := by
  induction s with
  | nil => rfl
  | cons c t ih =>
    have hc := h c (List.mem_cons_self c t)
    have ht : ∀ x ∈ t, 'a' ≤ x ∧ x ≤ 'e' := fun x hx => h x (List.mem_cons_of_mem c hx)
    have hht : utf8Len t = t.length := ih ht
    simp only [utf8Len, List.map_cons, List.sum_cons, List.length_cons] at hht ⊢
    rw [utf8Size_of_range hc.1 hc.2, hht]
    omega

theorem utf8Len_ge_length (s : List Char) : s.length ≤ utf8Len s := by
  induction s with
  | nil => simp [utf8Len]
  | cons c t ih =>
    have : 1 ≤ c.utf8Size := Char.utf8Size_pos c
    simp only [utf8Len, List.map_cons, List.sum_cons, List.length_cons] at ih ⊢
    omega

theorem foldl_max_replicate_zero (n a : Nat) :
    List.foldl Nat.max a (List.replicate n 0) = a := by
  induction n generalizing a with
  | zero => rfl
  | succ k ih => simpa [List.replicate_succ] using ih a

theorem length_dropWhile_le {α : Type} (p : α → Bool) (l : List α) :
    (l.dropWhile p).length ≤ l.length := by
  induction l with
  | nil => simp
  | cons a t ih =>
    rw [List.dropWhile_cons]
    split
    · exact le_trans ih (by simp)
    · exact le_refl _

theorem length_takeWhile_add_dropWhile {α : Type} (p : α → Bool) (l : List α) :
    (l.takeWhile p).length + (l.dropWhile p).length = l.length := by
  have h := congrArg List.length (List.takeWhile_append_dropWhile (p := p) (l := l))
  rw [List.length_append] at h
  exact h

theorem bumpLast_ne_nil {acc : List (Int × Nat)} (h : acc ≠ []) : bumpLast acc ≠ [] := by
  cases acc with
  | nil => exact absurd rfl h
  | cons p t =>
    cases t with
    | nil =>
      obtain ⟨m, n⟩ := p
      simp [bumpLast]
    | cons q t2 => simp [bumpLast]

theorem bumpLast_append (acc1 : List (Int × Nat)) {acc2 : List (Int × Nat)} (h : acc2 ≠ []) :
    bumpLast (acc1 ++ acc2) = acc1 ++ bumpLast acc2 := by
  induction acc1 with
  | nil => rfl
  | cons p t ih =>
    cases t with
    | nil =>
      cases acc2 with
      | nil => exact absurd rfl h
      | cons q t2 => rfl
    | cons p2 t2 =>
      have hstep : bumpLast (p :: (p2 :: (t2 ++ acc2))) = p :: bumpLast (p2 :: (t2 ++ acc2)) := rfl
      simp only [List.cons_append] at ih ⊢
      rw [hstep, ih]

theorem rleLoop_append (ms : List Int) (prev : Int) (acc1 : List (Int × Nat))
    {acc2 : List (Int × Nat)} (h : acc2 ≠ []) :
    rleLoop ms prev (acc1 ++ acc2) = acc1 ++ rleLoop ms prev acc2 := by
  induction ms generalizing prev acc2 with
  | nil => rfl
  | cons m t ih =>
    by_cases hm : m = prev
    · rw [rleLoop, rleLoop, if_pos hm, if_pos hm, bumpLast_append acc1 h,
        ih m (bumpLast_ne_nil h)]
    · rw [rleLoop, rleLoop, if_neg hm, if_neg hm, List.append_assoc,
        ih m (by simp)]

theorem rleLoop_run (ms : List Int) (prev : Int) (k : Nat) :
    rleLoop ms prev [(prev, k)] =
      (prev, k + (ms.takeWhile (fun x => x == prev)).length) ::
        rleSpec (ms.dropWhile (fun x => x == prev)) := by
  induction ms generalizing prev k with
  | nil => simp [rleLoop, rleSpec]
  | cons m t ih =>
    by_cases hm : m = prev
    · subst hm
      rw [rleLoop, if_pos rfl]
      have hb : bumpLast [(m, k)] = [(m, k + 1)] := rfl
      rw [hb, ih m (k + 1)]
      have h1 : (m :: t).takeWhile (fun x => x == m) = m :: t.takeWhile (fun x => x == m) := by
        simp [List.takeWhile_cons]
      have h2 : (m :: t).dropWhile (fun x => x == m) = t.dropWhile (fun x => x == m) := by
        simp [List.dropWhile_cons]
      rw [h1, h2, List.length_cons]
      have h3 : k + 1 + (t.takeWhile (fun x => x == m)).length =
          k + ((t.takeWhile (fun x => x == m)).length + 1) := by omega
      rw [h3]
    · rw [rleLoop, if_neg hm]
      rw [rleLoop_append t m [(prev, k)] (by simp), ih m 1]
      have hbeq : (m == prev) = false := by simp [hm]
      have h1 : (m :: t).takeWhile (fun x => x == prev) = [] := by
        simp [List.takeWhile_cons, hbeq]
      have h2 : (m :: t).dropWhile (fun x => x == prev) = m :: t := by
        simp [List.dropWhile_cons, hbeq]
      rw [h1, h2, rleSpec]
      simp

theorem marker_partitions_eq_rleSpec (markers : List Int) :
    marker_partitions markers = rleSpec markers := by
  cases markers with
  | nil => simp [marker_partitions, rleSpec]
  | cons m ms =>
    have h1 : marker_partitions (m :: ms) = rleLoop ms m [(m, 1)] := rfl
    rw [h1, rleLoop_run, rleSpec]

theorem sliceGroups_length {R : Type} (runs : List (Int × Nat)) (rows : List R) :
    (sliceGroups runs rows).length = (runs.filter (fun p => decide (0 < p.1))).length := by
  induction runs generalizing rows with
  | nil => rfl
  | cons p t ih =>
    obtain ⟨m, n⟩ := p
    by_cases hm : 0 < m <;> simp [sliceGroups, hm, ih]

theorem sumLens_rleSpec (n : Nat) :
    ∀ ms : List Int, ms.length = n → sumLens (rleSpec ms) = ms.length := by
  induction n using Nat.strong_induction_on with
  | _ n ih =>
    intro ms hlen
    cases ms with
    | nil => simp [rleSpec, sumLens]
    | cons m t =>
      rw [rleSpec]
      simp only [sumLens, List.map_cons, List.sum_cons] at ih ⊢
      have hdle : (t.dropWhile (fun x => x == m)).length ≤ t.length :=
        length_dropWhile_le _ _
      have hd : (t.dropWhile (fun x => x == m)).length < n := by
        simp only [List.length_cons] at hlen
        omega
      have hrec := ih _ hd (t.dropWhile (fun x => x == m)) rfl
      simp only [sumLens] at hrec
      have htd := length_takeWhile_add_dropWhile (fun x => x == m) t
      simp only [List.length_cons] at hlen ⊢
      omega

theorem pushLast_append_singleton {R : Type} (gs : List (List R)) (g : List R) (r : R) :
    pushLast (gs ++ [g]) r = some (gs ++ [g ++ [r]]) := by
  induction gs with
  | nil => rfl
  | cons h t ih =>
    cases t with
    | nil =>
      cases gs2 : ([] : List (List R)) ++ [g] with
      | nil => simp at gs2
      | cons a b => rfl
    | cons h2 t2 =>
      have hstep : pushLast (h :: (h2 :: (t2 ++ [g]))) r =
          (pushLast (h2 :: (t2 ++ [g])) r).map (h :: ·) := rfl
      simp only [List.cons_append] at ih ⊢
      rw [hstep, ih]
      rfl

theorem sliceGroups_skip_nonpos {R : Type} (m : Int) (ms : List Int) (r : R) (rows : List R)
    (hm : ¬ 0 < m) :
    sliceGroups (rleSpec (m :: ms)) (r :: rows) = sliceGroups (rleSpec ms) rows := by
  rw [rleSpec]
  simp only [sliceGroups]
  rw [if_neg hm]
  cases ms with
  | nil => simp [rleSpec, sliceGroups]
  | cons m2 ms2 =>
    by_cases he : m2 = m
    · subst he
      have h1 : (m2 :: ms2).takeWhile (fun x => x == m2) = m2 :: ms2.takeWhile (fun x => x == m2) := by
        simp [List.takeWhile_cons]
      have h2 : (m2 :: ms2).dropWhile (fun x => x == m2) = ms2.dropWhile (fun x => x == m2) := by
        simp [List.dropWhile_cons]
      rw [h1, h2, List.length_cons]
      have h3 : (r :: rows).drop (1 + ((ms2.takeWhile (fun x => x == m2)).length + 1)) =
          rows.drop (1 + (ms2.takeWhile (fun x => x == m2)).length) := by
        have : 1 + ((ms2.takeWhile (fun x => x == m2)).length + 1) =
            (1 + (ms2.takeWhile (fun x => x == m2)).length) + 1 := by omega
        rw [this, List.drop_succ_cons]
      rw [h3]
      conv_rhs => rw [rleSpec]
      simp only [sliceGroups]
      rw [if_neg hm]
    · have hbeq : (m2 == m) = false := by simp [he]
      have h1 : (m2 :: ms2).takeWhile (fun x => x == m) = [] := by
        simp [List.takeWhile_cons, hbeq]
      have h2 : (m2 :: ms2).dropWhile (fun x => x == m) = m2 :: ms2 := by
        simp [List.dropWhile_cons, hbeq]
      rw [h1, h2]
      simp

theorem pg_main {R : Type} (n : Nat) :
    (∀ (ms : List Int) (rows : List R) (last_marker : Int) (gs : List (List R)),
      ms.length = n → ms.length = rows.length →
      (∀ m0, ms.head? = some m0 → 0 < m0 → m0 ≠ last_marker) →
      pgLoop rows ms last_marker gs = some (gs ++ sliceGroups (rleSpec ms) rows)) ∧
    (∀ (ms : List Int) (rows : List R) (m : Int) (gs : List (List R)) (g : List R),
      ms.length = n → ms.length = rows.length → 0 < m →
      pgLoop rows ms m (gs ++ [g]) =
        some (gs ++ (g ++ rows.take (ms.takeWhile (fun x => x == m)).length) ::
          sliceGroups (rleSpec (ms.dropWhile (fun x => x == m)))
            (rows.drop (ms.takeWhile (fun x => x == m)).length))) := by
  induction n using Nat.strong_induction_on with
  | _ n ih =>
    have hP : ∀ (ms : List Int) (rows : List R) (last_marker : Int) (gs : List (List R)),
        ms.length = n → ms.length = rows.length →
        (∀ m0, ms.head? = some m0 → 0 < m0 → m0 ≠ last_marker) →
        pgLoop rows ms last_marker gs = some (gs ++ sliceGroups (rleSpec ms) rows) := by
      intro ms rows last_marker gs hn hlen hbound
      cases ms with
      | nil =>
        cases rows with
        | nil => simp [pgLoop, rleSpec, sliceGroups]
        | cons r t => simp at hlen
      | cons m ms2 =>
        cases rows with
        | nil => simp at hlen
        | cons r rows2 =>
          simp only [List.length_cons] at hn hlen
          by_cases hm : 0 < m
          · have hne : m ≠ last_marker := hbound m rfl hm
            have hpush : pushLast (gs ++ [[]]) r = some (gs ++ [[r]]) := by
              have h := pushLast_append_singleton gs [] r
              simpa using h
            have hQ2 := (ih ms2.length (by omega)).2 ms2 rows2 m gs [r] rfl (by omega) hm
            calc pgLoop (r :: rows2) (m :: ms2) last_marker gs
                = pgLoop rows2 ms2 m (gs ++ [[r]]) := by
                  simp only [pgLoop, if_pos hm, if_pos hne, hpush]
              _ = some (gs ++ ([r] ++ rows2.take (ms2.takeWhile (fun x => x == m)).length) ::
                    sliceGroups (rleSpec (ms2.dropWhile (fun x => x == m)))
                      (rows2.drop (ms2.takeWhile (fun x => x == m)).length)) := hQ2
              _ = some (gs ++ sliceGroups (rleSpec (m :: ms2)) (r :: rows2)) := by
                  rw [rleSpec]
                  simp only [sliceGroups]
                  rw [if_pos hm]
                  have h1 : 1 + (ms2.takeWhile (fun x => x == m)).length =
                      (ms2.takeWhile (fun x => x == m)).length + 1 := by omega
                  rw [h1, List.take_succ_cons, List.drop_succ_cons]
                  simp
          · have hb2 : ∀ m0, ms2.head? = some m0 → 0 < m0 → m0 ≠ m := by
              intro m0 _ h0 heq
              exact hm (heq ▸ h0)
            have hP2 := (ih ms2.length (by omega)).1 ms2 rows2 m gs rfl (by omega) hb2
            calc pgLoop (r :: rows2) (m :: ms2) last_marker gs
                = pgLoop rows2 ms2 m gs := by
                  simp only [pgLoop, if_neg hm]
              _ = some (gs ++ sliceGroups (rleSpec ms2) rows2) := hP2
              _ = some (gs ++ sliceGroups (rleSpec (m :: ms2)) (r :: rows2)) := by
                  rw [sliceGroups_skip_nonpos m ms2 r rows2 hm]
    refine ⟨hP, ?_⟩
    intro ms rows m gs g hn hlen hm
    cases ms with
    | nil =>
      cases rows with
      | nil => simp [pgLoop, rleSpec, sliceGroups]
      | cons r t => simp at hlen
    | cons m2 ms2 =>
      cases rows with
      | nil => simp at hlen
      | cons r rows2 =>
        simp only [List.length_cons] at hn hlen
        by_cases he : m2 = m
        · subst he
          have hpush : pushLast (gs ++ [g]) r = some (gs ++ [g ++ [r]]) :=
            pushLast_append_singleton gs g r
          have hQ2 := (ih ms2.length (by omega)).2 ms2 rows2 m2 gs (g ++ [r]) rfl (by omega) hm
          have h1 : (m2 :: ms2).takeWhile (fun x => x == m2) =
              m2 :: ms2.takeWhile (fun x => x == m2) := by
            simp [List.takeWhile_cons]
          have h2 : (m2 :: ms2).dropWhile (fun x => x == m2) =
              ms2.dropWhile (fun x => x == m2) := by
            simp [List.dropWhile_cons]
          have hcond : (if m2 ≠ m2 then gs ++ [g] ++ [[]] else gs ++ [g]) = gs ++ [g] := by
            simp
          calc pgLoop (r :: rows2) (m2 :: ms2) m2 (gs ++ [g])
              = pgLoop rows2 ms2 m2 (gs ++ [g ++ [r]]) := by
                simp only [pgLoop, if_pos hm, hcond, hpush]
            _ = some (gs ++ ((g ++ [r]) ++
                  rows2.take (ms2.takeWhile (fun x => x == m2)).length) ::
                  sliceGroups (rleSpec (ms2.dropWhile (fun x => x == m2)))
                    (rows2.drop (ms2.takeWhile (fun x => x == m2)).length)) := hQ2
            _ = some (gs ++ (g ++
                  (r :: rows2).take ((m2 :: ms2).takeWhile (fun x => x == m2)).length) ::
                  sliceGroups (rleSpec ((m2 :: ms2).dropWhile (fun x => x == m2)))
                    ((r :: rows2).drop ((m2 :: ms2).takeWhile (fun x => x == m2)).length)) := by
                rw [h1, h2, List.length_cons, List.take_succ_cons, List.drop_succ_cons]
                simp
        · have hbeq : (m2 == m) = false := by simp [he]
          have h1 : (m2 :: ms2).takeWhile (fun x => x == m) = [] := by
            simp [List.takeWhile_cons, hbeq]
          have h2 : (m2 :: ms2).dropWhile (fun x => x == m) = m2 :: ms2 := by
            simp [List.dropWhile_cons, hbeq]
          have hbound : ∀ m0, (m2 :: ms2).head? = some m0 → 0 < m0 → m0 ≠ m := by
            intro m0 hh h0
            simp at hh
            exact hh ▸ he
          have hPn := hP (m2 :: ms2) (r :: rows2) m (gs ++ [g]) (by simp; omega)
            (by simp; omega) hbound
          rw [hPn, h1, h2]
          simp

theorem length_takeWhile_le {α : Type} (p : α → Bool) (l : List α) :
    (l.takeWhile p).length ≤ l.length := by
  have h := length_takeWhile_add_dropWhile p l
  omega

theorem rowRange_ok {R : Type} : ∀ (len offset : Nat) (original : List R),
    offset + len ≤ original.length →
    rowRange original offset len = some ((original.drop offset).take len) := by
  intro len
  induction len with
  | zero => intro offset original h; simp [rowRange]
  | succ l ih =>
    intro offset original h
    have hlt : offset < original.length := by omega
    have hget : original.get? offset = some original[offset] := by
      rw [List.get?_eq_getElem?, List.getElem?_eq_getElem hlt]
    rw [rowRange, hget, ih (offset + 1) original (by omega)]
    have hdrop : original.drop offset = original[offset] :: original.drop (offset + 1) :=
      List.drop_eq_getElem_cons hlt
    rw [hdrop]
    rfl

theorem upWalk_cons_pos {R : Type} (m : Int) (n : Nat) (runs : List (Int × Nat))
    (u : List R) (us : List (List R)) (original : List R) (offset : Nat) (hm : 0 < m) :
    upWalk ((m, n) :: runs) (u :: us) original offset =
      (upWalk runs us original (offset + n)).map (u ++ ·) := by
  simp [upWalk, hm]

theorem upWalk_cons_pos_nil {R : Type} (m : Int) (n : Nat) (runs : List (Int × Nat))
    (original : List R) (offset : Nat) (hm : 0 < m) :
    upWalk ((m, n) :: runs) [] original offset = none := by
  simp [upWalk, hm]

theorem upWalk_cons_nonpos {R : Type} (m : Int) (n : Nat) (runs : List (Int × Nat))
    (untr : List (List R)) (original : List R) (offset : Nat) (hm : ¬ 0 < m) :
    upWalk ((m, n) :: runs) untr original offset =
      match rowRange original offset n with
      | none => none
      | some rs => (upWalk runs untr original (offset + n)).map (rs ++ ·) := by
  simp only [upWalk, if_neg hm]

theorem upWalk_reconstruct {R : Type} : ∀ (n : Nat) (ms : List Int) (rows pre : List R),
    ms.length = n → ms.length = rows.length →
    upWalk (rleSpec ms) (sliceGroups (rleSpec ms) rows) (pre ++ rows) pre.length =
      some rows := by
  intro n
  induction n using Nat.strong_induction_on with
  | _ n ih =>
    intro ms rows pre hn hlen
    cases ms with
    | nil =>
      cases rows with
      | nil => simp [rleSpec, sliceGroups, upWalk]
      | cons r t => simp at hlen
    | cons m ms2 =>
      rw [rleSpec]
      have hts : (ms2.takeWhile (fun x => x == m)).length +
          (ms2.dropWhile (fun x => x == m)).length = ms2.length :=
        length_takeWhile_add_dropWhile _ _
      set t := (ms2.takeWhile (fun x => x == m)).length with hts_def
      set d := ms2.dropWhile (fun x => x == m) with hd_def
      simp only [List.length_cons] at hn hlen
      have htle : 1 + t ≤ rows.length := by
        have := length_takeWhile_le (fun x => x == m) ms2
        omega
      have hpre2 : pre ++ rows = (pre ++ rows.take (1 + t)) ++ rows.drop (1 + t) := by
        rw [List.append_assoc, List.take_append_drop]
      have hlen2 : (pre ++ rows.take (1 + t)).length = pre.length + (1 + t) := by
        rw [List.length_append, List.length_take]
        have : min (1 + t) rows.length = 1 + t := Nat.min_eq_left htle
        rw [this]
      have hd_len : d.length = (rows.drop (1 + t)).length := by
        rw [List.length_drop]
        omega
      have hrec := ih d.length (by omega) d (rows.drop (1 + t)) (pre ++ rows.take (1 + t))
        rfl hd_len
      rw [hlen2] at hrec
      rw [← hpre2] at hrec
      by_cases hm : 0 < m
      · simp only [sliceGroups, if_pos hm]
        rw [upWalk_cons_pos _ _ _ _ _ _ _ hm, hrec]
        simp [List.take_append_drop]
      · simp only [sliceGroups, if_neg hm]
        rw [upWalk_cons_nonpos _ _ _ _ _ _ hm]
        have hrr : rowRange (pre ++ rows) pre.length (1 + t) = some (rows.take (1 + t)) := by
          rw [rowRange_ok (1 + t) pre.length (pre ++ rows)
            (by rw [List.length_append]; omega)]
          rw [List.drop_left]
        rw [hrr, hrec]
        simp [List.take_append_drop]

theorem partition_groups_char {R : Type} (rows : List R) (markers : List Int)
    (hlen : markers.length = rows.length) (hhead : markers.head? ≠ some isizeMAX) :
    partition_groups rows markers = some (.ok (sliceGroups (rleSpec markers) rows)) := by
  rw [partition_groups, if_neg (by omega)]
  have hbound : ∀ m0, markers.head? = some m0 → 0 < m0 → m0 ≠ isizeMAX := by
    intro m0 hh _ heq
    exact hhead (heq ▸ hh)
  rw [(pg_main markers.length).1 markers rows isizeMAX [] rfl hlen hbound]
  simp

theorem sumLens_cons (m : Int) (n : Nat) (t : List (Int × Nat)) :
    sumLens ((m, n) :: t) = n + sumLens t := by
  simp [sumLens]

theorem upWalk_ok {R : Type} :
    ∀ (runs : List (Int × Nat)) (untr : List (List R)) (original : List R) (offset : Nat),
    (runs.filter (fun p => decide (0 < p.1))).length ≤ untr.length →
    offset + sumLens runs ≤ original.length →
    ∃ out, upWalk runs untr original offset = some out := by
  intro runs
  induction runs with
  | nil => exact fun untr original offset _ _ => ⟨[], rfl⟩
  | cons p t ih =>
    obtain ⟨m, n⟩ := p
    intro untr original offset hcount hsum
    rw [sumLens_cons] at hsum
    by_cases hm : 0 < m
    · rw [List.filter_cons, if_pos (by simpa using hm)] at hcount
      cases untr with
      | nil => simp at hcount
      | cons u us =>
        rw [upWalk_cons_pos _ _ _ _ _ _ _ hm]
        simp only [List.length_cons] at hcount
        obtain ⟨out, hout⟩ := ih us original (offset + n) (by omega) (by omega)
        exact ⟨u ++ out, by rw [hout]; rfl⟩
    · rw [List.filter_cons, if_neg (by simpa using hm)] at hcount
      rw [upWalk_cons_nonpos _ _ _ _ _ _ hm]
      have hrr : rowRange original offset n = some ((original.drop offset).take n) :=
        rowRange_ok n offset original (by omega)
      rw [hrr]
      obtain ⟨out, hout⟩ := ih untr original (offset + n) hcount (by omega)
      exact ⟨_, by rw [hout]; rfl⟩

/-! ## Theorems: claims C2, C7 and C8 -/

/-- C8: with markers of the same length as the row list, `partition_groups`
yields exactly one group per maximal run of equal positive markers, each group
holding exactly that run's rows in order, rows under non-positive markers
appearing in no group.  A marker list of a different length is an error.
(The underlying walk starts with `last_marker = isize::MAX`, so a leading
`isize::MAX` marker would hit the `groups.last_mut().unwrap()` panic; the
characterization therefore assumes the first marker is not `isize::MAX`.) -/
theorem C8_partition_groups {R : Type} (rows : List R) (markers : List Int) :
    (markers.length ≠ rows.length → ∃ e, partition_groups rows markers = some (.error e)) ∧
    (markers.length = rows.length → markers.head? ≠ some isizeMAX →
      partition_groups rows markers = some (.ok (sliceGroups (rleSpec markers) rows))) := by
  constructor
  · intro h
    exact ⟨"Cannot partition array with markers of length " ++ toString markers.length,
      by rw [partition_groups, if_pos h]⟩
  · intro h1 h2
    exact partition_groups_char rows markers h1 h2

/-- C8 witness: a concrete partition with a repeated positive run, a dropped
negative row and a fresh positive run, plus a length-mismatch error. -/
theorem C8_partition_groups_witness :
    partition_groups [0, 1, 2, 3] [(2 : Int), 2, -1, 3] = some (.ok [[0, 1], [3]]) ∧
    (∃ e, partition_groups ([] : List Nat) [(1 : Int)] = some (.error e)) := by
  constructor
  · have h := (C8_partition_groups ([0, 1, 2, 3] : List Nat) [(2 : Int), 2, -1, 3]).2 rfl
      (by decide)
    refine h.trans ?_
    norm_num [rleSpec, sliceGroups]
  · exact (C8_partition_groups ([] : List Nat) [(1 : Int)]).1 (by decide)

/-- C2 (amended): for markers matching the row count and not starting with
`isize::MAX`, partitioning with the identity and then unpartitioning with the
identity restores the original rows exactly. -/
theorem C2_partition_roundtrip {R : Type} (rows : List R) (markers : List Int)
    (hlen : markers.length = rows.length) (hhead : markers.head? ≠ some isizeMAX) :
    partitionUnpartitionId rows markers = some (.ok rows) := by
  rw [partitionUnpartitionId, partitionMap, partition_groups_char rows markers hlen hhead]
  simp only [List.map_id]
  rw [unpartition, if_neg (by simp)]
  simp only [List.map_id]
  rw [marker_partitions_eq_rleSpec]
  have hcnt : ((rleSpec markers).filter (fun p => decide (0 < p.1))).length =
      (sliceGroups (rleSpec markers) rows).length := (sliceGroups_length _ _).symm
  rw [if_neg (by omega)]
  have hw := upWalk_reconstruct markers.length markers rows [] rfl hlen
  simp only [List.nil_append, List.length_nil] at hw
  rw [hw]
  rfl

/-- C2 counterexample: with the single marker `isize::MAX` (and matching
lengths, as the claim requires), `partition_groups` panics on
`groups.last_mut().unwrap()` — the first marker equals the initial
`last_marker`, so no group is ever opened — instead of the round trip
succeeding with the original array. -/
theorem C2_partition_roundtrip_counterexample :
    [isizeMAX].length = [(0 : Nat)].length ∧
    partitionUnpartitionId [(0 : Nat)] [isizeMAX] = none := by
  constructor
  · rfl
  · rfl

/-- C2 witness: the amended round trip at a concrete array and marker list. -/
theorem C2_partition_roundtrip_witness :
    partitionUnpartitionId [10, 20, 30] [(1 : Int), 1, -1] = some (.ok [10, 20, 30]) :=
  C2_partition_roundtrip [10, 20, 30] [(1 : Int), 1, -1] rfl (by decide)

/-- C7: with a function of signature `(1, 1)` and under-stack values
consistent with the partition (markers as long as the original's row list),
`unpartition` succeeds exactly when the number of maximal runs of equal
markers with a positive marker equals the row count of the transformed array;
when the counts differ it errors with the message carrying both counts. -/
theorem C7_unpartition_runcount {R : Type} (f : List R → List R)
    (partitioned : List (List R)) (original : List R) (markers : List Int)
    (hlen : markers.length = original.length) :
    ((((rleSpec markers).filter (fun p => decide (0 < p.1))).length = partitioned.length →
      ∃ out, unpartition (1, 1) f partitioned original markers = some (.ok out)) ∧
    (((rleSpec markers).filter (fun p => decide (0 < p.1))).length ≠ partitioned.length →
      unpartition (1, 1) f partitioned original markers =
        some (.error ("Cannot undo partition because the paritioned array originally had " ++
          toString (((rleSpec markers).filter (fun p => decide (0 < p.1))).length) ++
          " rows, but now it has " ++ toString partitioned.length)))) := by
  constructor
  · intro hcount
    rw [unpartition, if_neg (by simp), marker_partitions_eq_rleSpec]
    rw [if_neg (by rw [List.length_map]; omega)]
    obtain ⟨out, hout⟩ := upWalk_ok (rleSpec markers) (partitioned.map f) original 0
      (by rw [List.length_map]; omega)
      (by rw [sumLens_rleSpec markers.length markers rfl]; omega)
    exact ⟨out, by rw [hout]; rfl⟩
  · intro hcount
    rw [unpartition, if_neg (by simp), marker_partitions_eq_rleSpec]
    rw [if_pos (by rw [List.length_map]; omega)]
    rw [List.length_map]

/-- C7 witness: a success whose run count matches and a failure whose message
carries both counts. -/
theorem C7_unpartition_runcount_witness :
    (∃ out, unpartition (1, 1) id [[0], [2]] [0, 1, 2] [(1 : Int), -1, 2] =
      some (.ok out)) ∧
    unpartition (1, 1) id [[0]] [0, 1, 2] [(1 : Int), -1, 2] =
      some (.error ("Cannot undo partition because the paritioned array originally had " ++
        toString 2 ++ " rows, but now it has " ++ toString 1)) := by
  have hruns : ((rleSpec [(1 : Int), -1, 2]).filter (fun p => decide (0 < p.1))).length = 2 := by
    norm_num [rleSpec]
  constructor
  · exact (C7_unpartition_runcount id ([[0], [2]] : List (List Nat)) [0, 1, 2]
      [(1 : Int), -1, 2] rfl).1 (by rw [hruns]; rfl)
  · have h := (C7_unpartition_runcount id ([[0]] : List (List Nat)) [0, 1, 2]
      [(1 : Int), -1, 2] rfl).2 (by rw [hruns]; decide)
    refine h.trans ?_
    simp [hruns]

/-! ## Theorems: claims C1 and C6 -/

theorem preserves_rfl (c : Compiler) : Preserves c c :=
  ⟨le_refl _, le_refl _, fun h => h, fun h t hin => ⟨[], by rw [hin, List.append_nil]⟩⟩

theorem preserves_trans {a b c : Compiler} (h1 : Preserves a b) (h2 : Preserves b c) :
    Preserves a c := by
  obtain ⟨i1, g1, e1, f1⟩ := h1
  obtain ⟨i2, g2, e2, f2⟩ := h2
  refine ⟨le_trans i1 i2, le_trans g1 g2, fun h => e2 (e1 h), fun h t hin => ?_⟩
  obtain ⟨d, hd⟩ := f1 h t hin
  obtain ⟨d2, hd2⟩ := f2 (h ++ d) t hd
  exact ⟨d ++ d2, by rw [hd2, List.append_assoc]⟩

theorem preserves_push_instr (c : Compiler) (i : Instr) :
    Preserves c (c.push_instr i) := by
  cases hip : c.in_progress_functions with
  | nil =>
    have hre : c.push_instr i = { c with global_instrs := c.global_instrs ++ [i] } := by
      rw [Compiler.push_instr, hip]
    rw [hre]
    refine ⟨le_refl _, by simp, fun _ => hip, fun h t hin => ?_⟩
    rw [hip] at hin
    exact absurd hin (by simp)
  | cons f rest =>
    have hre : c.push_instr i = { c with in_progress_functions := (f ++ [i]) :: rest } := by
      rw [Compiler.push_instr, hip]
    rw [hre]
    refine ⟨le_refl _, le_refl _, fun h => ?_, fun h t hin => ?_⟩
    · rw [h] at hip
      exact absurd hip (by simp)
    · rw [hip] at hin
      injection hin with h1 h2
      subst h1
      subst h2
      exact ⟨[i], rfl⟩

theorem push_instr_global_mono (c : Compiler) (i : Instr) :
    c.global_instrs.length ≤ (c.push_instr i).global_instrs.length :=
  (preserves_push_instr c i).2.1

theorem preserves_push_call_span (c : Compiler) (s : Nat) :
    Preserves c (c.push_call_span s).1 := by
  rw [Compiler.push_call_span]
  exact ⟨le_refl _, le_refl _, fun h => h, fun h t hin => ⟨[], by rw [hin, List.append_nil]⟩⟩

theorem preserves_set_errors (c : Compiler) (e : List (Nat × CompileError)) :
    Preserves c { c with errors := e } :=
  ⟨le_refl _, le_refl _, fun h => h, fun h t hin => ⟨[], by rw [hin, List.append_nil]⟩⟩

theorem preserves_set_bindings (c : Compiler) (bs : List (String × Bound)) :
    Preserves c { c with bindings := bs } :=
  ⟨le_refl _, le_refl _, fun h => h, fun h t hin => ⟨[], by rw [hin, List.append_nil]⟩⟩

theorem preserves_primitive (p : Primitive) (sp : Nat) (call : Bool) (c : Compiler) :
    Preserves c (primitive p sp call c) := by
  rw [primitive]
  split
  · exact preserves_trans (preserves_push_instr _ _)
      (preserves_trans (preserves_push_call_span _ _) (preserves_push_instr _ _))
  · exact preserves_push_instr _ _

theorem preserves_selector (s : Selector) (sp : Nat) (call : Bool) (c : Compiler) :
    Preserves c (selector s sp call c) := by
  rw [selector]
  split
  · exact preserves_trans (preserves_push_instr _ _)
      (preserves_trans (preserves_push_call_span _ _) (preserves_push_instr _ _))
  · exact preserves_push_instr _ _

theorem preserves_ident (pfn : String → Option Primitive) (name : String) (sp : Nat)
    (call : Bool) (c : Compiler) : Preserves c (ident pfn name sp call c) := by
  have hstep : ∀ (c1 : Compiler), Preserves c c1 →
      Preserves c (if call then
        ((c1.push_call_span sp).1.push_instr (Instr.Call (c1.push_call_span sp).2)) else c1) := by
    intro c1 h1
    split
    · exact preserves_trans h1
        (preserves_trans (preserves_push_call_span _ _) (preserves_push_instr _ _))
    · exact h1
  rw [ident]
  split
  · split
    · exact preserves_primitive _ _ _ _
    · split
      · exact preserves_selector _ _ _ _
      · exact hstep _ (preserves_trans (preserves_set_errors _ _) (preserves_push_instr _ _))
  · split <;> exact hstep _ (preserves_push_instr _ _)

theorem push_instr_nil (c : Compiler) (i : Instr) (hip : c.in_progress_functions = []) :
    c.push_instr i = { c with global_instrs := c.global_instrs ++ [i] } := by
  rw [Compiler.push_instr, hip]

theorem push_instr_cons (c : Compiler) (h : List Instr) (t : List (List Instr)) (i : Instr)
    (hip : c.in_progress_functions = h :: t) :
    c.push_instr i = { c with in_progress_functions := (h ++ [i]) :: t } := by
  rw [Compiler.push_instr, hip]

theorem push_instr_assembly (c : Compiler) (i : Instr) :
    (c.push_instr i).assembly = c.assembly := by
  cases hip : c.in_progress_functions with
  | nil => rw [push_instr_nil c i hip]
  | cons h t => rw [push_instr_cons c h t i hip]

theorem finish_effect (cIn c6 : Compiler) (i : Instr) (t : List (List Instr))
    (ha : cIn.assembly.instrs.length ≤ c6.assembly.instrs.length)
    (hg : cIn.global_instrs.length ≤ c6.global_instrs.length)
    (hip : c6.in_progress_functions = t) :
    cIn.assembly.instrs.length ≤ (c6.push_instr i).assembly.instrs.length ∧
    cIn.global_instrs.length ≤ (c6.push_instr i).global_instrs.length ∧
    (t = [] → (c6.push_instr i).in_progress_functions = []) ∧
    (∀ h2 t2, t = h2 :: t2 →
      ∃ dd, (c6.push_instr i).in_progress_functions = (h2 ++ dd) :: t2) := by
  refine ⟨?_, ?_, ?_, ?_⟩
  · rw [push_instr_assembly]
    exact ha
  · exact le_trans hg (preserves_push_instr c6 i).2.1
  · intro ht
    exact (preserves_push_instr c6 i).2.2.1 (by rw [hip, ht])
  · intro h2 t2 ht
    exact (preserves_push_instr c6 i).2.2.2 h2 t2 (by rw [hip, ht])

theorem func_outer_post_effect (cIn : Compiler) (id : FunctionId) (top : List Instr)
    (t : List (List Instr)) (hip : cIn.in_progress_functions = top :: t) :
    cIn.assembly.instrs.length ≤ (func_outer_post id cIn).assembly.instrs.length ∧
    cIn.global_instrs.length ≤ (func_outer_post id cIn).global_instrs.length ∧
    (t = [] → (func_outer_post id cIn).in_progress_functions = []) ∧
    (∀ h2 t2, t = h2 :: t2 →
      ∃ dd, (func_outer_post id cIn).in_progress_functions = (h2 ++ dd) :: t2) := by
  have h1 := push_instr_cons cIn top t (Instr.Comment ("end of " ++ fnComment id)) hip
  rw [func_outer_post, h1]
  have h2 := push_instr_cons
    ({ cIn with in_progress_functions :=
        (top ++ [Instr.Comment ("end of " ++ fnComment id)]) :: t })
    (top ++ [Instr.Comment ("end of " ++ fnComment id)]) t Instr.Return rfl
  rw [h2]
  dsimp only
  cases hs : short_circuit
      (top ++ [Instr.Comment ("end of " ++ fnComment id)] ++ [Instr.Return]) with
  | some f =>
    simp only [hs]
    cases id <;> exact finish_effect cIn _ _ t (le_refl _) (le_refl _) rfl
  | none =>
    simp only [hs]
    cases id <;>
      exact finish_effect cIn _ _ t (by simp [Assembly.add_function_instrs]) (le_refl _) rfl

theorem preserves_func_outer (c : Compiler) (id : FunctionId) (c2 : Compiler)
    (hbody : Preserves (func_outer_pre c id) c2) :
    Preserves c (func_outer_post id c2) := by
  have hpre_ip : (func_outer_pre c id).in_progress_functions =
      [Instr.Comment (fnComment id)] :: c.in_progress_functions := rfl
  have hpre_a : (func_outer_pre c id).assembly = c.assembly := rfl
  have hpre_g : (func_outer_pre c id).global_instrs = c.global_instrs := rfl
  obtain ⟨d, hd⟩ := hbody.2.2.2 _ _ hpre_ip
  have heff := func_outer_post_effect c2 id _ _ hd
  refine ⟨?_, ?_, heff.2.2.1, heff.2.2.2⟩
  · calc c.assembly.instrs.length
        = (func_outer_pre c id).assembly.instrs.length := by rw [hpre_a]
      _ ≤ c2.assembly.instrs.length := hbody.1
      _ ≤ _ := heff.1
  · calc c.global_instrs.length
        = (func_outer_pre c id).global_instrs.length := by rw [hpre_g]
      _ ≤ c2.global_instrs.length := hbody.2.1
      _ ≤ _ := heff.2.1

theorem compile_preserves (pfn : String → Option Primitive) : ∀ n : Nat,
    (∀ (w : Word × Nat) (call : Bool) (c : Compiler), sizeOf w ≤ n →
      Preserves c (word pfn w call c)) ∧
    (∀ (ws : List (Word × Nat)) (call : Bool) (c : Compiler), sizeOf ws ≤ n →
      Preserves c (words pfn ws call c)) ∧
    (∀ (fs : List Func) (c : Compiler), sizeOf fs ≤ n →
      Preserves c (funcsRev pfn fs c)) ∧
    (∀ (f : Func) (c : Compiler), sizeOf f ≤ n → Preserves c (func pfn f c)) ∧
    (∀ (m : Modified) (call : Bool) (c : Compiler), sizeOf m ≤ n →
      Preserves c (modified pfn m call c)) := by
  intro n
  induction n using Nat.strong_induction_on with
  | _ n ih =>
    refine ⟨?_, ?_, ?_, ?_, ?_⟩
    · intro w call c hw
      obtain ⟨wv, sp⟩ := w
      cases wv with
      | Number s parsed =>
        cases parsed with
        | some fq =>
          simp only [word]
          exact preserves_push_instr _ _
        | none =>
          simp only [word]
          exact preserves_trans (preserves_set_errors _ _) (preserves_push_instr _ _)
      | Chr ch =>
        simp only [word]
        exact preserves_push_instr _ _
      | Str s =>
        simp only [word]
        exact preserves_push_instr _ _
      | Ident name =>
        simp only [word]
        exact preserves_ident _ _ _ _ _
      | Array items =>
        have hlt : sizeOf items < n := by
          simp at hw
          omega
        have h2 := (ih (sizeOf items) hlt).2.1 items true
          (c.push_instr Instr.BeginArray) (le_refl _)
        simp only [word]
        exact preserves_trans (preserves_push_instr _ _) (preserves_trans h2
          (preserves_trans (preserves_push_call_span _ _) (preserves_push_instr _ _)))
      | Strand items =>
        have hlt : sizeOf items < n := by
          simp at hw
          omega
        have h2 := (ih (sizeOf items) hlt).2.1 items false
          (c.push_instr Instr.BeginArray) (le_refl _)
        simp only [word]
        exact preserves_trans (preserves_push_instr _ _)
          (preserves_trans h2 (preserves_push_instr _ _))
      | Func f =>
        have hlt : sizeOf f < n := by
          simp at hw
          omega
        simp only [word]
        exact (ih (sizeOf f) hlt).2.2.2.1 f c (le_refl _)
      | FuncArray funcs =>
        have hlt : sizeOf funcs < n := by
          simp at hw
          omega
        have h2 := (ih (sizeOf funcs) hlt).2.2.1 funcs
          (c.push_instr Instr.BeginArray) (le_refl _)
        simp only [word]
        exact preserves_trans (preserves_push_instr _ _)
          (preserves_trans h2 (preserves_push_instr _ _))
      | Primitive p =>
        simp only [word]
        exact preserves_primitive _ _ _ _
      | Modified m =>
        have hlt : sizeOf m < n := by
          simp at hw
          omega
        simp only [word]
        exact (ih (sizeOf m) hlt).2.2.2.2 m call c (le_refl _)
    · intro ws call c hws
      cases ws with
      | nil =>
        simp only [words]
        exact preserves_rfl c
      | cons w rest =>
        have hlt1 : sizeOf rest < n := by
          simp at hws
          omega
        have hlt2 : sizeOf w < n := by
          simp at hws
          omega
        have h1 := (ih (sizeOf rest) hlt1).2.1 rest call c (le_refl _)
        have h2 := (ih (sizeOf w) hlt2).1 w call (words pfn rest call c) (le_refl _)
        simp only [words]
        exact preserves_trans h1 h2
    · intro fs c hfs
      cases fs with
      | nil =>
        simp only [funcsRev]
        exact preserves_rfl c
      | cons f rest =>
        have hlt1 : sizeOf rest < n := by
          simp at hfs
          omega
        have hlt2 : sizeOf f < n := by
          simp at hfs
          omega
        have h1 := (ih (sizeOf rest) hlt1).2.2.1 rest c (le_refl _)
        have h2 := (ih (sizeOf f) hlt2).2.2.2.1 f (funcsRev pfn rest c) (le_refl _)
        simp only [funcsRev]
        exact preserves_trans h1 h2
    · intro f c hf
      cases f with
      | mk id body =>
        have hlt : sizeOf body < n := by
          simp at hf
          omega
        have hbody := (ih (sizeOf body) hlt).2.1 body true (func_outer_pre c id) (le_refl _)
        simp only [func]
        exact preserves_func_outer c id _ hbody
    · intro m call c hm
      cases m with
      | mk md wd =>
        have hlt : sizeOf wd < n := by
          simp at hm
          omega
        have hword := (ih (sizeOf wd) hlt).1 wd false
          (func_outer_pre c (FunctionId.Anonymous (mergeSpans md.2 wd.2))) (le_refl _)
        have hbody := preserves_trans hword (preserves_primitive md.1 md.2 true _)
        have hpost := preserves_func_outer c (FunctionId.Anonymous (mergeSpans md.2 wd.2))
          _ hbody
        simp only [modified]
        split
        · exact preserves_trans hpost
            (preserves_trans (preserves_push_call_span _ _) (preserves_push_instr _ _))
        · exact hpost

theorem words_preserves (pfn : String → Option Primitive) (ws : List (Word × Nat))
    (call : Bool) (c : Compiler) : Preserves c (words pfn ws call c) :=
  (compile_preserves pfn (sizeOf ws)).2.1 ws call c (le_refl _)

theorem func_preserves (pfn : String → Option Primitive) (f : Func) (c : Compiler) :
    Preserves c (func pfn f c) :=
  (compile_preserves pfn (sizeOf f)).2.2.2.1 f c (le_refl _)

theorem binding_preserves (pfn : String → Option Primitive) (b : Binding) (c : Compiler) :
    Preserves c (binding pfn b c) := by
  rw [binding]
  split
  · exact preserves_trans (func_preserves _ _ _)
      (preserves_trans (preserves_set_bindings _ _) (preserves_push_instr _ _))
  · exact preserves_trans (words_preserves _ _ _ _)
      (preserves_trans (preserves_set_bindings _ _) (preserves_push_instr _ _))

theorem item_preserves (pfn : String → Option Primitive) (it : Item) (c : Compiler) :
    Preserves c (item pfn it c) := by
  cases it with
  | Words ws => exact words_preserves _ _ _ _
  | Binding b => exact binding_preserves _ _ _
  | Comment s => exact preserves_rfl c
  | Newlines => exact preserves_rfl c

theorem items_fold_preserves (pfn : String → Option Primitive) :
    ∀ (its : List Item) (c : Compiler),
    Preserves c (its.foldl (fun acc it2 => item pfn it2 acc) c) := by
  intro its
  induction its with
  | nil => exact fun c => preserves_rfl c
  | cons it2 rest ih =>
    intro c
    rw [List.foldl_cons]
    exact preserves_trans (item_preserves pfn it2 c) (ih (item pfn it2 c))

theorem push_instr_bindings (c : Compiler) (i : Instr) :
    (c.push_instr i).bindings = c.bindings := by
  cases hip : c.in_progress_functions with
  | nil => rw [push_instr_nil c i hip]
  | cons h t => rw [push_instr_cons c h t i hip]

theorem lookup_insertBinding (bs : List (String × Bound)) (name : String) (v : Bound) :
    lookupBinding (insertBinding bs name v) name = some v := by
  rw [insertBinding]
  split
  case isTrue hany =>
    induction bs with
    | nil => simp at hany
    | cons p rest ih =>
      by_cases hp : p.1 = name
      · simp only [List.map_cons, if_pos hp, lookupBinding]
        rw [List.find?_cons_of_pos _ (by simp)]
        rfl
      · simp only [List.any_cons, Bool.or_eq_true, decide_eq_true_eq] at hany
        rcases hany with h | h
        · exact absurd h hp
        · simp only [List.map_cons, if_neg hp, lookupBinding]
          rw [List.find?_cons_of_neg _ (by simpa using hp)]
          have := ih h
          simpa [lookupBinding] using this
  case isFalse hany =>
    induction bs with
    | nil =>
      simp [lookupBinding]
    | cons p rest ih =>
      simp only [List.any_cons, Bool.or_eq_true, decide_eq_true_eq, not_or] at hany
      simp only [List.cons_append, lookupBinding]
      rw [List.find?_cons_of_neg _ (by simpa using hany.1)]
      have := ih (by simpa using hany.2)
      simpa [lookupBinding] using this

/-- C1 (amended): after any failing `load`, the global instruction buffer and
the assembly instruction buffer are back at their pre-call lengths.  (The
bindings map is not restored; see the counterexample.) -/
theorem C1_load_rollback (pfn : String → Option Primitive) (its : List Item)
    (perrs : List (Nat × CompileError)) (c c2 : Compiler)
    (errs : List (Nat × CompileError))
    (h : load_impl pfn its perrs c = (c2, some errs)) :
    c2.global_instrs.length = c.global_instrs.length ∧
    c2.assembly.instrs.length = c.assembly.instrs.length := by
  have hmono := items_fold_preserves pfn its c
  simp only [load_impl] at h
  by_cases he : (perrs ++ (its.foldl (fun acc it2 => item pfn it2 acc) c).errors).isEmpty = true
  · rw [if_pos he] at h
    exact absurd (congrArg Prod.snd h) (by simp)
  · rw [if_neg he] at h
    have h1 := congrArg Prod.fst h
    simp only at h1
    rw [← h1]
    constructor
    · simp only [List.length_take]
      have := hmono.2.1
      omega
    · simp only [Assembly.truncate, List.length_take]
      have := hmono.1
      omega

/-- C1 counterexample: a load of a lowercase binding plus a parse error
fails, yet the binding for "x" survives in the bindings map — `load_impl`
truncates the two instruction buffers but never restores `bindings`. -/
theorem C1_load_rollback_counterexample :
    (load_impl (fun _ => none) [Item.Binding ⟨("x", 0), []⟩]
        [(0, CompileError.Parse "bad")] emptyCompiler).2.isSome = true ∧
    lookupBinding (load_impl (fun _ => none) [Item.Binding ⟨("x", 0), []⟩]
        [(0, CompileError.Parse "bad")] emptyCompiler).1.bindings "x" =
      some (Bound.Global 0) ∧
    lookupBinding emptyCompiler.bindings "x" = none ∧
    (load_impl (fun _ => none) [Item.Binding ⟨("x", 0), []⟩]
        [(0, CompileError.Parse "bad")] emptyCompiler).1.global_instrs.length =
      emptyCompiler.global_instrs.length := by
  have hb : binding (fun _ => none) ⟨("x", 0), []⟩ emptyCompiler =
      { emptyCompiler with
        global_instrs := [Instr.BindGlobal],
        bindings := [("x", Bound.Global 0)] } := by
    simp only [binding, words]
    rw [if_neg (by decide)]
    rfl
  have hfold : [Item.Binding ⟨("x", 0), []⟩].foldl
      (fun acc it2 => item (fun _ => none) it2 acc) emptyCompiler =
      { emptyCompiler with
        global_instrs := [Instr.BindGlobal],
        bindings := [("x", Bound.Global 0)] } := by
    simp only [List.foldl_cons, List.foldl_nil, item]
    exact hb
  simp only [load_impl, hfold]
  rw [if_neg (by decide)]
  refine ⟨rfl, ?_, rfl, rfl⟩
  rfl

/-- C1 witness: the amended rollback at a failing load over a compiler whose
top-level buffer already holds one instruction. -/
theorem C1_load_rollback_witness :
    ({ emptyCompiler with
      global_instrs := [Instr.BindGlobal],
      errors := [] } : Compiler).global_instrs.length =
      ({ emptyCompiler with
        global_instrs := [Instr.BindGlobal] } : Compiler).global_instrs.length ∧
    ({ emptyCompiler with
      global_instrs := [Instr.BindGlobal],
      errors := [] } : Compiler).assembly.instrs.length =
      ({ emptyCompiler with
        global_instrs := [Instr.BindGlobal] } : Compiler).assembly.instrs.length :=
  C1_load_rollback (fun _ => none) [] [(0, CompileError.Parse "bad")]
    { emptyCompiler with global_instrs := [Instr.BindGlobal] }
    { emptyCompiler with
      global_instrs := [Instr.BindGlobal],
      errors := [] }
    [(0, CompileError.Parse "bad")] (by rfl)

/-- C6 (amended): every binding item — capitalised or not — overwrites the
name with `Bound::Global(index)` where `index` is the count of `Global`
bindings after the body is compiled, and emits a `BindGlobal` instruction
(landing at the end of the top-level buffer when no function is in
progress).  A capitalised name's body is compiled as a `Func`
(`func_outer`'s `Function` binding for the name is immediately
overwritten). -/
theorem C6_binding_global (pfn : String → Option Primitive) (b : Binding) (c : Compiler)
    (cbody : Compiler)
    (hcbody : cbody = if is_capitalized b.name.1
      then func pfn (Func.mk (FunctionId.Named b.name.1) b.words) c
      else words pfn b.words true c) :
    lookupBinding (binding pfn b c).bindings b.name.1 =
      some (Bound.Global (countGlobals cbody.bindings)) ∧
    (c.in_progress_functions = [] →
      (binding pfn b c).global_instrs.getLast? = some Instr.BindGlobal) := by
  have hbodyp : Preserves c (if is_capitalized b.name.1
      then func pfn (Func.mk (FunctionId.Named b.name.1) b.words) c
      else words pfn b.words true c) := by
    split
    · exact func_preserves _ _ _
    · exact words_preserves _ _ _ _
  rw [← hcbody] at hbodyp
  have hbind : binding pfn b c = Compiler.push_instr
      { cbody with
        bindings := insertBinding cbody.bindings b.name.1
          (Bound.Global (countGlobals cbody.bindings)) } Instr.BindGlobal := by
    rw [binding, ← hcbody]
  constructor
  · rw [hbind, push_instr_bindings]
    exact lookup_insertBinding _ _ _
  · intro hnil
    have hip2 : cbody.in_progress_functions = [] := hbodyp.2.2.1 hnil
    have hip3 : ({ cbody with
        bindings := insertBinding cbody.bindings b.name.1
          (Bound.Global (countGlobals cbody.bindings)) } :
        Compiler).in_progress_functions = [] := hip2
    rw [hbind, push_instr_nil _ _ hip3]
    simp

/-- C6 witness: the amended behaviour at a lowercase binding on the empty
compiler. -/
theorem C6_binding_global_witness :
    lookupBinding (binding (fun _ => none) ⟨("y", 0), []⟩ emptyCompiler).bindings "y" =
      some (Bound.Global 0) ∧
    (binding (fun _ => none) ⟨("y", 0), []⟩ emptyCompiler).global_instrs.getLast? =
      some Instr.BindGlobal := by
  have h := C6_binding_global (fun _ => none) ⟨("y", 0), []⟩ emptyCompiler
    (words (fun _ => none) [] true emptyCompiler) (by rw [if_neg (by decide)])
  constructor
  · have h1 := h.1
    simpa [words, countGlobals, emptyCompiler] using h1
  · exact h.2 rfl

/-- C6 counterexample: for the capitalised binding `F ← (empty body)` the
final binding of "F" is `Global 0`, not a `Function`, and a `BindGlobal`
instruction is emitted — `Compiler::binding` runs the global-index
assignment and `BindGlobal` push unconditionally after the capitalised
branch. -/
theorem C6_binding_counterexample :
    is_capitalized "F" = true ∧
    lookupBinding (binding (fun _ => none) ⟨("F", 0), []⟩ emptyCompiler).bindings "F" =
      some (Bound.Global 0) ∧
    (∀ f, lookupBinding (binding (fun _ => none) ⟨("F", 0), []⟩ emptyCompiler).bindings "F" ≠
      some (Bound.Function f)) ∧
    Instr.BindGlobal ∈ (binding (fun _ => none) ⟨("F", 0), []⟩ emptyCompiler).global_instrs := by
  have hfunc : func (fun _ => none) (Func.mk (FunctionId.Named "F") []) emptyCompiler =
      { global_instrs := [Instr.Push (Value.func (UFunction.Code 0))],
        in_progress_functions := [],
        bindings := [("F", Bound.Function (UFunction.Code 0))],
        errors := [],
        assembly :=
          { instrs := [Instr.Comment "fn F", Instr.Comment "end of fn F",
              Instr.Return],
            start := 3,
            constants := [],
            function_ids := [(UFunction.Code 0, FunctionId.Named "F")],
            spans := [] } } := by
    simp only [func, words]
    rfl
  have hbind : binding (fun _ => none) ⟨("F", 0), []⟩ emptyCompiler =
      { global_instrs := [Instr.Push (Value.func (UFunction.Code 0)), Instr.BindGlobal],
        in_progress_functions := [],
        bindings := [("F", Bound.Global 0)],
        errors := [],
        assembly :=
          { instrs := [Instr.Comment "fn F", Instr.Comment "end of fn F",
              Instr.Return],
            start := 3,
            constants := [],
            function_ids := [(UFunction.Code 0, FunctionId.Named "F")],
            spans := [] } } := by
    rw [binding, if_pos (by decide)]
    rw [hfunc]
    rfl
  rw [hbind]
  refine ⟨by decide, rfl, ?_, by simp⟩
  intro f hf
  simp [lookupBinding] at hf

/-! ## Theorems: claim C5 -/

theorem ratTrunc_intCast (k : Int) : ratTrunc (k : ℚ) = k := by
  rw [ratTrunc]
  split
  · exact Int.floor_intCast k
  · exact Int.ceil_intCast k

theorem ratFract_intCast (k : Int) : ratFract (k : ℚ) = 0 := by
  rw [ratFract, ratTrunc_intCast]
  ring

/-- C5 counterexample: the finite repetition count `2 ^ (-53)` (an exactly
representable `f64`) has a non-zero fractional part, yet `repeat` does not
raise the integrality error — the check only fires when the fractional part
exceeds `f64::EPSILON` — and instead calls the function zero times. -/
theorem C5_repeat_counterexample :
    ratFract ((1 : ℚ) / 9007199254740992) ≠ 0 ∧
    repeatFinite (fun _ => Except.ok ()) () ((1 : ℚ) / 9007199254740992) =
      .ok ((), 0) := by
  have htr : ratTrunc ((1 : ℚ) / 9007199254740992) = 0 := by
    rw [ratTrunc, if_pos (by norm_num)]
    exact Int.floor_eq_zero_iff.mpr ⟨by norm_num, by norm_num⟩
  have hfr : ratFract ((1 : ℚ) / 9007199254740992) = (1 : ℚ) / 9007199254740992 := by
    rw [ratFract, htr]
    norm_num
  constructor
  · rw [hfr]
    norm_num
  · rw [repeatFinite, if_neg ?hc, if_neg (by norm_num)]
    case hc =>
      rw [hfr, abs_of_pos (by norm_num), f64Epsilon]
      norm_num
    have habs : |(1 : ℚ) / 9007199254740992| = (1 : ℚ) / 9007199254740992 :=
      abs_of_pos (by norm_num)
    rw [habs, htr]
    rfl

/-- C5 (amended): `repeat` on a finite count `n` raises "Repetitions must be a
single integer or infinity" whenever `|fract(n)|` exceeds `f64::EPSILON`
(not merely when the fractional part is non-zero); on an integer count `k`
(of magnitude at most `usize::MAX`) it never raises that error and calls the
function exactly `|k|` times, replacing it first by its inverse when `k < 0`
(an inversion failure propagating that error). -/
theorem C5_repeat_amended {Fn : Type} (invert : Fn → Except String Fn) (f : Fn)
    (n : ℚ) (k : Int) :
    (f64Epsilon < |ratFract n| →
      repeatFinite invert f n = .error "Repetitions must be a single integer or infinity") ∧
    (n = (k : ℚ) → 0 ≤ k → k.natAbs ≤ usizeMAX →
      repeatFinite invert f n = .ok (f, k.natAbs)) ∧
    (n = (k : ℚ) → k < 0 → k.natAbs ≤ usizeMAX →
      repeatFinite invert f n = (invert f).map (fun g => (g, k.natAbs))) := by
  refine ⟨fun h => ?_, fun hk hpos hbound => ?_, fun hk hneg hbound => ?_⟩
  · rw [repeatFinite, if_pos h]
  · subst hk
    rw [repeatFinite, if_neg (by rw [ratFract_intCast]; simp [f64Epsilon]),
      if_neg (by simp; exact_mod_cast hpos)]
    have habs : |(k : ℚ)| = ((|k| : Int) : ℚ) := by push_cast; rfl
    rw [habs, ratTrunc_intCast]
    have h2 : |k|.toNat = k.natAbs := by
      rcases le_or_lt 0 k with h | h
      · rw [abs_of_nonneg h]; omega
      · rw [abs_of_neg h]; omega
    rw [h2, Nat.min_eq_left hbound]
  · subst hk
    rw [repeatFinite, if_neg (by rw [ratFract_intCast]; simp [f64Epsilon]),
      if_pos (by exact_mod_cast hneg)]
    have habs : |(k : ℚ)| = ((|k| : Int) : ℚ) := by push_cast; rfl
    rw [habs, ratTrunc_intCast]
    have h2 : |k|.toNat = k.natAbs := by
      rcases le_or_lt 0 k with h | h
      · rw [abs_of_nonneg h]; omega
      · rw [abs_of_neg h]; omega
    rw [h2, Nat.min_eq_left hbound]
    cases invert f <;> rfl

/-- C5 witness: the amended behaviour at the concrete counts `-3` (three calls
of the inverse) and `1/2` (the integrality error). -/
theorem C5_repeat_amended_witness :
    repeatFinite (fun _ => Except.ok 7) 5 (-3 : ℚ) = .ok (7, 3) ∧
    repeatFinite (fun _ => Except.ok 7) 5 ((1 : ℚ) / 2) =
      .error "Repetitions must be a single integer or infinity" := by
  constructor
  · have h := (C5_repeat_amended (fun _ => Except.ok 7) 5 (-3 : ℚ) (-3)).2.2
      (by norm_num) (by norm_num) (by norm_num [usizeMAX])
    rw [h]
    rfl
  · refine (C5_repeat_amended (fun _ => Except.ok 7) 5 ((1 : ℚ) / 2) 0).1 ?_
    have htr : ratTrunc ((1 : ℚ) / 2) = 0 := by
      rw [ratTrunc, if_pos (by norm_num)]
      exact Int.floor_eq_zero_iff.mpr ⟨by norm_num, by norm_num⟩
    rw [ratFract, htr]
    rw [show ((1 : ℚ) / 2 - (0 : Int)) = 1 / 2 by norm_num]
    rw [abs_of_pos (by norm_num), f64Epsilon]
    norm_num

/-! ## Theorems: claim C4 -/

/-- C4: `do_` validates its popped body `f` and condition `g` as specified —
a condition with no outputs errors; `copy_count` is `max(0, g.args -
(g.outputs - 1))`; the condition sub-signature is `(g.args, g.outputs +
copy_count - 1)`; the composition of `f`'s signature with it must be net-zero
or `do_` errors — and each iteration clones the top `copy_count` stack values,
calls `g`, pops a value that must be 0 or 1 (anything else errors), exits the
loop on 0 and calls `f` on 1. -/
theorem C4_do_signatures_and_loop (f g : List ℚ → Except String (List ℚ))
    (f_sig g_sig : Signature) (fuel : Nat) (stack : List ℚ) :
    (g_sig.outputs = 0 →
      do_ f g f_sig g_sig fuel stack =
        some (.error
          ("Do's condition function must return at least 1 value, but its signature is " ++
            toString g_sig.args ++ "." ++ toString g_sig.outputs))) ∧
    (1 ≤ g_sig.outputs →
      (do_copy_count g_sig : Int) = max 0 (g_sig.args - (g_sig.outputs - 1)) ∧
      (do_g_sub g_sig).args = g_sig.args ∧
      ((do_g_sub g_sig).outputs : Int) = g_sig.outputs + do_copy_count g_sig - 1 ∧
      ((f_sig.compose (do_g_sub g_sig)).args = (f_sig.compose (do_g_sub g_sig)).outputs →
        do_ f g f_sig g_sig fuel stack = doLoop f g (do_copy_count g_sig) fuel stack) ∧
      ((f_sig.compose (do_g_sub g_sig)).args ≠ (f_sig.compose (do_g_sub g_sig)).outputs →
        ∃ e, do_ f g f_sig g_sig fuel stack = some (.error e))) ∧
    (∀ (cc fuel2 : Nat) (st : List ℚ) (v : ℚ) (rest : List ℚ),
      g (st.take cc ++ st) = .ok (v :: rest) →
      ((v = 0 → doLoop f g cc (fuel2 + 1) st = some (.ok rest)) ∧
       (v = 1 → ∀ st2, f rest = .ok st2 →
          doLoop f g cc (fuel2 + 1) st = doLoop f g cc fuel2 st2) ∧
       (v ≠ 0 → v ≠ 1 →
          doLoop f g cc (fuel2 + 1) st =
            some (.error "Do condition must be a boolean")))) := by
  refine ⟨fun h0 => ?_, fun h1 => ?_, fun cc fuel2 st v rest hg => ?_⟩
  · have hs : doSetup f_sig g_sig = .error
        ("Do's condition function must return at least 1 value, but its signature is " ++
          toString g_sig.args ++ "." ++ toString g_sig.outputs) := by
      rw [doSetup, if_pos (by omega)]
    rw [do_, hs]
  · refine ⟨?_, rfl, ?_, fun hc => ?_, fun hc => ?_⟩
    · rw [do_copy_count]
      rcases Nat.le_total g_sig.args (g_sig.outputs - 1) with h | h
      · rw [Nat.sub_eq_zero_of_le h, max_eq_left (by omega)]
      · rw [max_eq_right (by omega)]
    · rw [do_g_sub]
      push_cast
      omega
    · have hs : doSetup f_sig g_sig = .ok (do_copy_count g_sig, do_g_sub g_sig) := by
        rw [doSetup, if_neg (by omega)]
        simp only [if_neg (show ¬(f_sig.compose (do_g_sub g_sig)).args ≠
          (f_sig.compose (do_g_sub g_sig)).outputs from not_not_intro hc)]
      rw [do_, hs]
    · have hs : doSetup f_sig g_sig = .error
          ("Do's functions must have a net stack change of 0, but the composed signature of " ++
            toString f_sig.args ++ "." ++ toString f_sig.outputs ++ " and " ++
            toString g_sig.args ++ "." ++ toString g_sig.outputs ++
            ", minus the condition, is " ++
            toString (f_sig.compose (do_g_sub g_sig)).args ++ "." ++
            toString (f_sig.compose (do_g_sub g_sig)).outputs) := by
        rw [doSetup, if_neg (by omega)]
        simp only [if_pos hc]
      exact ⟨_, by rw [do_, hs]⟩
  · refine ⟨fun hv0 => ?_, fun hv1 st2 hf => ?_, fun hv0 hv1 => ?_⟩
    · subst hv0
      have hb : as_bool 0 = .ok false := by
        rw [as_bool, if_neg (by norm_num), if_pos rfl]
      simp only [doLoop, hg, hb]
    · subst hv1
      have hb : as_bool 1 = .ok true := by
        rw [as_bool, if_pos rfl]
      simp only [doLoop, hg, hb, hf]
    · have hb : as_bool v = .error "Do condition must be a boolean" := by
        rw [as_bool, if_neg hv1, if_neg hv0]
      simp only [doLoop, hg, hb]

/-- C4 witness: a condition with no outputs errors; a net-zero pair runs the
loop, which at a concrete stack clones zero values, sees the condition push 0
and exits; a condition pushing 2 errors. -/
theorem C4_do_signatures_and_loop_witness :
    do_ (fun st => .ok st) (fun st => .ok st) ⟨0, 0⟩ ⟨1, 0⟩ 1 [] =
      some (.error
        ("Do's condition function must return at least 1 value, but its signature is " ++
          toString 1 ++ "." ++ toString 0)) ∧
    do_ (fun st => .ok st) (fun st => .ok ((0 : ℚ) :: st)) ⟨0, 0⟩ ⟨0, 1⟩ 1 [5] =
      some (.ok [5]) ∧
    doLoop (fun st => .ok st) (fun st => .ok ((2 : ℚ) :: st)) 0 1 [5] =
      some (.error "Do condition must be a boolean") := by
  refine ⟨?_, ?_, ?_⟩
  · exact (C4_do_signatures_and_loop (fun st => .ok st) (fun st => .ok st)
      ⟨0, 0⟩ ⟨1, 0⟩ 1 []).1 rfl
  · have h2 := (C4_do_signatures_and_loop (fun st => .ok st)
      (fun st => .ok ((0 : ℚ) :: st)) ⟨0, 0⟩ ⟨0, 1⟩ 1 [5]).2.1 (by norm_num)
    have hrun := h2.2.2.2.1 (by rfl)
    rw [hrun]
    have h3 := ((C4_do_signatures_and_loop (fun st => .ok st)
      (fun st => .ok ((0 : ℚ) :: st)) ⟨0, 0⟩ ⟨0, 1⟩ 1 [5]).2.2 0 0 [5] 0 [5] rfl).1 rfl
    rw [show do_copy_count ⟨0, 1⟩ = 0 from rfl]
    exact h3
  · exact ((C4_do_signatures_and_loop (fun st => .ok st)
      (fun st => .ok ((2 : ℚ) :: st)) ⟨0, 0⟩ ⟨0, 1⟩ 1 [5]).2.2 0 0 [5] 2 [5] rfl).2.2
      (by norm_num) (by norm_num)

/-! ## Theorems: claim C10 -/

theorem ugWalk_bucket_count {R : Type} :
    ∀ (l : List Int) (b : List (List R)) (o : List R) (i : Nat) (out : List R)
      (bs : List (List R)),
    ugWalk l b o i = some (.ok (out, bs)) → bs.length = b.length := by
  intro l
  induction l with
  | nil =>
    intro b o i out bs h
    simp [ugWalk] at h
    rw [← h.2]
  | cons index rest ih =>
    intro b o i out bs h
    by_cases hnn : 0 ≤ index
    · cases hb : b[index.toNat]? with
      | none => simp [ugWalk, hnn, hb] at h
      | some bucket =>
        cases bucket with
        | nil => simp [ugWalk, hnn, hb] at h
        | cons r brest =>
          cases hrec : ugWalk rest (b.set index.toNat brest) o (i + 1) with
          | none => simp [ugWalk, hnn, hb, hrec] at h
          | some res =>
            cases res with
            | error e => simp [ugWalk, hnn, hb, hrec] at h
            | ok pr =>
              obtain ⟨out2, bs2⟩ := pr
              simp [ugWalk, hnn, hb, hrec] at h
              have := ih (b.set index.toNat brest) o (i + 1) out2 bs2 hrec
              rw [List.length_set] at this
              rw [← h.2]
              exact this
    · cases hg : o[i]? with
      | none => simp [ugWalk, hnn, hg] at h
      | some r =>
        cases hrec : ugWalk rest b o (i + 1) with
        | none => simp [ugWalk, hnn, hg, hrec] at h
        | some res =>
          cases res with
          | error e => simp [ugWalk, hnn, hg, hrec] at h
          | ok pr =>
            obtain ⟨out2, bs2⟩ := pr
            simp [ugWalk, hnn, hg, hrec] at h
            have := ih b o (i + 1) out2 bs2 hrec
            rw [← h.2]
            exact this

theorem ugWalk_append_result {R : Type} :
    ∀ (l1 l2 : List Int) (b : List (List R)) (o : List R) (i : Nat) (out1 : List R)
      (b1 : List (List R)),
    ugWalk l1 b o i = some (.ok (out1, b1)) →
    ((ugWalk l2 b1 o (i + l1.length) = none → ugWalk (l1 ++ l2) b o i = none) ∧
     (∀ e, ugWalk l2 b1 o (i + l1.length) = some (.error e) →
        ugWalk (l1 ++ l2) b o i = some (.error e))) := by
  intro l1
  induction l1 with
  | nil =>
    intro l2 b o i out1 b1 h
    simp [ugWalk] at h
    constructor
    · intro hc
      simpa [h.2] using hc
    · intro e hc
      simpa [h.2] using hc
  | cons index rest ih =>
    intro l2 b o i out1 b1 h
    have hoff : i + (index :: rest).length = (i + 1) + rest.length := by
      simp
      omega
    by_cases hnn : 0 ≤ index
    · cases hb : b[index.toNat]? with
      | none => simp [ugWalk, hnn, hb] at h
      | some bucket =>
        cases bucket with
        | nil => simp [ugWalk, hnn, hb] at h
        | cons r brest =>
          cases hrec : ugWalk rest (b.set index.toNat brest) o (i + 1) with
          | none => simp [ugWalk, hnn, hb, hrec] at h
          | some res =>
            cases res with
            | error e0 => simp [ugWalk, hnn, hb, hrec] at h
            | ok pr =>
              obtain ⟨out2, bs2⟩ := pr
              have hmain := ih l2 (b.set index.toNat brest) o (i + 1) out2 bs2 hrec
              have hb1 : b1 = bs2 := by
                simp [ugWalk, hnn, hb, hrec] at h
                exact h.2.symm
              subst hb1
              constructor
              · intro hc
                rw [hoff] at hc
                have := hmain.1 hc
                simp [ugWalk, hnn, hb, this]
              · intro e hc
                rw [hoff] at hc
                have := hmain.2 e hc
                simp [ugWalk, hnn, hb, this]
    · cases hg : o[i]? with
      | none => simp [ugWalk, hnn, hg] at h
      | some r =>
        cases hrec : ugWalk rest b o (i + 1) with
        | none => simp [ugWalk, hnn, hg, hrec] at h
        | some res =>
          cases res with
          | error e0 => simp [ugWalk, hnn, hg, hrec] at h
          | ok pr =>
            obtain ⟨out2, bs2⟩ := pr
            have hmain := ih l2 b o (i + 1) out2 bs2 hrec
            have hb1 : b1 = bs2 := by
              simp [ugWalk, hnn, hg, hrec] at h
              exact h.2.symm
            subst hb1
            constructor
            · intro hc
              rw [hoff] at hc
              have := hmain.1 hc
              simp [ugWalk, hnn, hg, this]
            · intro e hc
              rw [hoff] at hc
              have := hmain.2 e hc
              simp [ugWalk, hnn, hg, this]

/-- C10 counterexample: the call below has the non-negative index `1`, which
is at least the row count (1) of the popped grouped value, yet `ungroup`
returns the recoverable "modified between grouping and ungrouping" error
rather than panicking: the walk reaches position 0 first, whose in-bounds
bucket is exhausted. -/
theorem C10_ungroup_counterexample :
    (∃ ix ∈ [(0 : Int), 1], 0 ≤ ix ∧ (([[]] : List (List Nat)).length : Int) ≤ ix) ∧
    ungroup (1, 1) id ([[]] : List (List Nat)) [0, 1] [0, 1] =
      some (.error "A group's length was modified between grouping and ungrouping") := by
  constructor
  · exact ⟨1, by decide, by decide, by decide⟩
  · rfl

/-- C10 (amended): if the reassembly walk reaches position `j` with every
earlier step succeeding, and the index at `j` is non-negative, then an index
at least the row count of the popped grouped value makes `ungroup` panic on
the unchecked `ungrouped_rows[index]` indexing (result `none`), while an
in-bounds but exhausted bucket yields the recoverable "modified between
grouping and ungrouping" error. -/
theorem C10_ungroup_indexing {R : Type} (f : List R → List R) (grouped : List (List R))
    (original : List R) (indices : List Int) (j : Nat) (index : Int)
    (out1 : List R) (b1 : List (List R))
    (hj : indices.get? j = some index) (hnn : 0 ≤ index)
    (hpre : ugWalk (indices.take j) ((grouped.reverse.map f).reverse) original 0 =
      some (.ok (out1, b1))) :
    (grouped.length ≤ index.toNat → ungroup (1, 1) f grouped original indices = none) ∧
    (b1.get? index.toNat = some [] →
      ungroup (1, 1) f grouped original indices =
        some (.error "A group's length was modified between grouping and ungrouping")) := by
  have hjlt : j < indices.length := by
    by_contra hge
    rw [List.get?_eq_getElem?, List.getElem?_eq_none (by omega)] at hj
    cases hj
  have hsplit : indices = indices.take j ++ (index :: indices.drop (j + 1)) := by
    have h1 : indices.drop j = index :: indices.drop (j + 1) := by
      have := List.drop_eq_getElem_cons hjlt
      rw [List.get?_eq_getElem?, List.getElem?_eq_getElem hjlt] at hj
      cases hj
      exact this
    rw [← h1, List.take_append_drop]
  have htlen : (indices.take j).length = j := by
    rw [List.length_take]
    exact Nat.min_eq_left (by omega)
  have hblen : b1.length = grouped.length := by
    have h := ugWalk_bucket_count (indices.take j) ((grouped.reverse.map f).reverse)
      original 0 out1 b1 hpre
    rw [h, List.length_reverse, List.length_map, List.length_reverse]
  have happ := ugWalk_append_result (indices.take j) (index :: indices.drop (j + 1))
    ((grouped.reverse.map f).reverse) original 0 out1 b1 hpre
  rw [htlen] at happ
  constructor
  · intro hoob
    have hget : b1[index.toNat]? = none := List.getElem?_eq_none (by omega)
    have hcont : ugWalk (index :: indices.drop (j + 1)) b1 original (0 + j) = none := by
      simp [ugWalk, hnn, hget]
    have hres := happ.1 hcont
    rw [ungroup, if_neg (by simp)]
    rw [← hsplit] at hres
    simp only [hres]
    rfl
  · intro hexh
    rw [List.get?_eq_getElem?] at hexh
    have hcont : ugWalk (index :: indices.drop (j + 1)) b1 original (0 + j) =
        some (.error "A group's length was modified between grouping and ungrouping") := by
      simp [ugWalk, hnn, hexh]
    have hres := happ.2 _ hcont
    rw [ungroup, if_neg (by simp)]
    rw [← hsplit] at hres
    simp only [hres]
    rfl

/-- C10 witness: at position 0 (an empty successful prefix) an out-of-bounds
index panics, and an exhausted in-bounds bucket errors. -/
theorem C10_ungroup_indexing_witness :
    ungroup (1, 1) id ([[10]] : List (List Nat)) [5] [1] = none ∧
    ungroup (1, 1) id ([[]] : List (List Nat)) [5] [0] =
      some (.error "A group's length was modified between grouping and ungrouping") := by
  constructor
  · exact (C10_ungroup_indexing id ([[10]] : List (List Nat)) [5] [1] 0 1 [] [[10]]
      rfl (by decide) rfl).1 (by decide)
  · exact (C10_ungroup_indexing id ([[]] : List (List Nat)) [5] [0] 0 0 [] [[]]
      rfl (by decide) rfl).2 rfl

/-! ## Theorems: claims C3 and C9 -/

/-- C3: `Selector::from_str` accepts exactly the strings of 1 to 5 characters
drawn from the range `'a'..='e'`; on every accepted string, `Display`
reproduces the string exactly, `min_inputs` is the maximum digit of the string
(`'a'` counting as 1 through `'e'` as 5), and `outputs` is its length. -/
theorem C3_selector_law (s : List Char) :
    ((Selector.from_str s).isSome ↔
      s ≠ [] ∧ s.length ≤ 5 ∧ ∀ c ∈ s, 'a' ≤ c ∧ c ≤ 'e') ∧
    (∀ sel, Selector.from_str s = some sel →
      sel.display = s ∧ sel.min_inputs = maxDigit s ∧ sel.outputs = s.length) := by
  have hcond : (s = [] ∨ 5 < utf8Len s ∨
      s.any (fun c => !(decide ('a' ≤ c) && decide (c ≤ 'e'))) = true) ↔
      ¬(s ≠ [] ∧ s.length ≤ 5 ∧ ∀ c ∈ s, 'a' ≤ c ∧ c ≤ 'e') := by
    constructor
    · rintro (h | h | h)
      · simp [h]
      · rintro ⟨_, hlen, hall⟩
        rw [utf8Len_of_range hall] at h
        omega
      · rintro ⟨_, _, hall⟩
        rcases List.any_eq_true.mp h with ⟨c, hc, hbad⟩
        rcases hall c hc with ⟨h1, h2⟩
        simp [h1, h2] at hbad
    · intro h
      by_contra hor
      push_neg at hor
      rcases hor with ⟨hne, hlen, hany⟩
      apply h
      have hall : ∀ c ∈ s, 'a' ≤ c ∧ c ≤ 'e' := by
        intro c hc
        by_contra hbad
        have : s.any (fun c => !(decide ('a' ≤ c) && decide (c ≤ 'e'))) = true := by
          refine List.any_eq_true.mpr ⟨c, hc, ?_⟩
          rcases Decidable.not_and_iff_or_not.mp hbad with h1 | h1 <;> simp [h1]
        exact hany this
      refine ⟨hne, ?_, hall⟩
      calc s.length ≤ utf8Len s := utf8Len_ge_length s
        _ ≤ 5 := hlen
  constructor
  · rw [Selector.from_str]
    split_ifs with h
    · simpa using hcond.mp h
    · simp only [Option.isSome_some, true_iff]
      by_contra hbad
      exact h (hcond.mpr hbad)
  · intro sel hsel
    rw [Selector.from_str] at hsel
    split_ifs at hsel with h
    have hgood : s ≠ [] ∧ s.length ≤ 5 ∧ ∀ c ∈ s, 'a' ≤ c ∧ c ≤ 'e' := by
      by_contra hbad
      exact h (hcond.mpr hbad)
    rcases hgood with ⟨-, hlen, hall⟩
    have hdata : sel.data =
        (s.map (fun c => c.toNat - 'a'.toNat + 1)) ++ List.replicate (5 - s.length) 0 := by
      cases hsel
      rfl
    have hdig : s.map (fun c => c.toNat - 'a'.toNat + 1) = s.map charDigit := rfl
    have hnz : ∀ x ∈ s.map charDigit, (x != 0) = true := by
      intro x hx
      rcases List.mem_map.mp hx with ⟨c, -, rfl⟩
      have := charDigit_pos c
      simp
      omega
    refine ⟨?_, ?_, ?_⟩
    · rw [Selector.display, hdata, hdig, List.takeWhile_append]
      have htw : (s.map charDigit).takeWhile (fun i => i != 0) = s.map charDigit :=
        List.takeWhile_eq_self_iff.mpr hnz
      rw [if_pos (by rw [htw])]
      have hrep : (List.replicate (5 - s.length) (0 : Nat)).takeWhile (fun i => i != 0) = [] := by
        cases h5 : 5 - s.length with
        | zero => rfl
        | succ k => simp [List.replicate_succ, List.takeWhile_cons]
      rw [hrep, List.append_nil, List.map_map]
      conv_rhs => rw [← List.map_id s]
      apply List.map_congr_left
      intro c hc
      have := charDigit_roundtrip (hall c hc).1 (hall c hc).2
      simpa [Function.comp, charDigit] using this
    · rw [Selector.min_inputs, hdata, hdig, List.foldl_append, foldl_max_replicate_zero]
      rfl
    · rw [Selector.outputs, hdata, hdig, List.findIdx?_append]
      have hl1 : (s.map charDigit).findIdx? (fun i => i == 0) = none := by
        rw [List.findIdx?_eq_none_iff]
        intro x hx
        have := hnz x hx
        simpa using this
      rw [hl1, Option.none_or, List.findIdx?_replicate]
      rcases Nat.lt_or_ge s.length 5 with h5 | h5
      · rw [if_pos (by constructor <;> simp <;> omega)]
        simp
      · have h55 : s.length = 5 := le_antisymm hlen h5
        rw [if_neg (by simp [h55])]
        simp [h55]

/-- C3 witness: the law applied to the concrete selector string "bab". -/
theorem C3_selector_law_witness :
    (Selector.from_str ['b', 'a', 'b']).isSome ∧
    ∃ sel, Selector.from_str ['b', 'a', 'b'] = some sel ∧
      sel.display = ['b', 'a', 'b'] ∧ sel.min_inputs = 2 ∧ sel.outputs = 3 := by
  have h := C3_selector_law ['b', 'a', 'b']
  constructor
  · exact h.1.mpr (by decide)
  · refine ⟨⟨[2, 1, 2, 0, 0]⟩, by decide, ?_⟩
    have := h.2 ⟨[2, 1, 2, 0, 0]⟩ (by decide)
    simpa [maxDigit, charDigit] using this

/-- C9: `rank_to_depth` returns the co-rank exactly as specified: `0` when no
rank is declared; `actual - max(0, actual + d)` for a negative declared rank
`d`; `actual - min(d, actual)` for a non-negative one. -/
theorem C9_rank_to_depth :
    (∀ a : Nat, rank_to_depth none a = 0) ∧
    (∀ (d : Int) (a : Nat), d < 0 →
      (rank_to_depth (some d) a : Int) = a - max 0 (a + d)) ∧
    (∀ (d : Int) (a : Nat), 0 ≤ d →
      (rank_to_depth (some d) a : Int) = a - min d a) := by
  refine ⟨fun a => ?_, fun d a hd => ?_, fun d a hd => ?_⟩
  · simp only [rank_to_depth, Option.getD]
    rw [if_neg (by omega)]
    simp
  · simp only [rank_to_depth, Option.getD]
    rw [if_pos hd]
    rcases le_total ((a : Int) + d) 0 with h | h
    · rw [max_eq_right h, max_eq_left h]
      omega
    · rw [max_eq_left h, max_eq_right h]
      omega
  · simp only [rank_to_depth, Option.getD]
    rw [if_neg (by omega)]
    rcases le_total d (a : Int) with h | h
    · have hmin : d.toNat.min a = d.toNat := Nat.min_eq_left (by omega)
      rw [min_eq_left h, hmin]
      omega
    · have hmin : d.toNat.min a = a := Nat.min_eq_right (by omega)
      rw [min_eq_right h, hmin]
      omega

/-- C9 witness: the three cases evaluated at concrete ranks. -/
theorem C9_rank_to_depth_witness :
    rank_to_depth none 3 = 0 ∧
    (rank_to_depth (some (-1)) 3 : Int) = 3 - max 0 (3 + (-1)) ∧
    (rank_to_depth (some 2) 3 : Int) = 3 - min 2 3 := by
  refine ⟨C9_rank_to_depth.1 3, ?_, ?_⟩
  · have := C9_rank_to_depth.2.1 (-1) 3 (by norm_num)
    simpa using this
  · have := C9_rank_to_depth.2.2 2 3 (by norm_num)
    simpa using this

end Uiua
